import Mathlib

/-!
# A verification model of the safetensors codec (`src/mlx/io/safetensors.cpp`)

The C++ source implements a codec for the safetensors container format:
`[8-byte little-endian header length][JSON header][concatenated tensor bytes]`.
This file gives a shallow embedding of that code over byte lists and proves
the documented properties of the dtype tag mapping, the writer pipeline
(`save_safetensors`), and the reader pipeline (`load_safetensors`).

Modelling conventions:
* Byte streams and C++ `std::string` values are `List Nat` (each entry a byte).
* The JSON library (`nlohmann::json`, an external dependency of the source)
  is modelled by the inductive `Json` together with an executable compact
  serializer (`dumpJson`, mirroring `json::dump()`: no whitespace, the usual
  string escapes) and an executable recursive-descent parser (`Json.parse`,
  mirroring `json::parse` on an exact byte range).  JSON objects are kept in
  insertion order (the real library sorts keys; no property proved here
  depends on the physical key order of the emitted header, only on the
  key→value bindings and on the writer's tensor iteration order).
* The C++ code signals errors by throwing; the model returns explicit error
  values drawn from the taxonomy of the specification (§7).
* The `unordered_map` arguments iterate in one fixed (implementation-defined)
  order; the model takes that order as the order of an association list, which
  both passes of the writer observe identically, exactly as the code relies on.
* Stream-state preconditions (`is_open`/`good`, the `StreamUnavailable` error)
  concern external stream objects and are outside the modelled byte content.
-/

/-- Byte strings: C++ `std::string` values and raw buffers, as lists of bytes. -/
abbrev ByteStr := List Nat

/-- Modelled from the spec: the internal element-type enumeration (§3 TypeTag):
boolean, signed and unsigned integers of width 8/16/32/64, float16, bfloat16,
float32 and complex64.  The definition of the internal `Dtype` type
(mlx/dtype.h) is not under `src/`; the spec fixes exactly these thirteen
types.  Constructor names follow the C++ enumerators used in the source. -/
inductive Dtype where
  | float32
  | bfloat16
  | float16
  | int64
  | int32
  | int16
  | int8
  | uint64
  | uint32
  | uint16
  | uint8
  | bool_
  | complex64
  deriving DecidableEq, Repr

/-- Modelled from the spec: element byte widths of the TypeTag enumeration
(§6: F32(4), F16(2), BF16(2), I64(8), I32(4), I16(2), I8(1), U64(8), U32(4),
U16(2), U8(1), BOOL(1), C64(8)); the width table itself (mlx/dtype.h) is not
under `src/`. -/
def dtypeSize : Dtype → Nat
  | .float32 => 4
  | .bfloat16 => 2
  | .float16 => 2
  | .int64 => 8
  | .int32 => 4
  | .int16 => 2
  | .int8 => 1
  | .uint64 => 8
  | .uint32 => 4
  | .uint16 => 2
  | .uint8 => 1
  | .bool_ => 1
  | .complex64 => 8

/-- The `ST_F32` literal `"F32"` as bytes. -/
def stF32 : ByteStr := [0x46, 0x33, 0x32]
/-- The `ST_F16` literal `"F16"` as bytes. -/
def stF16 : ByteStr := [0x46, 0x31, 0x36]
/-- The `ST_BF16` literal `"BF16"` as bytes. -/
def stBF16 : ByteStr := [0x42, 0x46, 0x31, 0x36]
/-- The `ST_I64` literal `"I64"` as bytes. -/
def stI64 : ByteStr := [0x49, 0x36, 0x34]
/-- The `ST_I32` literal `"I32"` as bytes. -/
def stI32 : ByteStr := [0x49, 0x33, 0x32]
/-- The `ST_I16` literal `"I16"` as bytes. -/
def stI16 : ByteStr := [0x49, 0x31, 0x36]
/-- The `ST_I8` literal `"I8"` as bytes. -/
def stI8 : ByteStr := [0x49, 0x38]
/-- The `ST_U64` literal `"U64"` as bytes. -/
def stU64 : ByteStr := [0x55, 0x36, 0x34]
/-- The `ST_U32` literal `"U32"` as bytes. -/
def stU32 : ByteStr := [0x55, 0x33, 0x32]
/-- The `ST_U16` literal `"U16"` as bytes. -/
def stU16 : ByteStr := [0x55, 0x31, 0x36]
/-- The `ST_U8` literal `"U8"` as bytes. -/
def stU8 : ByteStr := [0x55, 0x38]
/-- The `ST_BOOL` literal `"BOOL"` as bytes. -/
def stBOOL : ByteStr := [0x42, 0x4F, 0x4F, 0x4C]
/-- The `ST_C64` literal `"C64"` as bytes. -/
def stC64 : ByteStr := [0x43, 0x36, 0x34]

/-- The thirteen canonical tag strings, in the order the decoder tests them. -/
def safetensorTags : List ByteStr :=
  [stF32, stF16, stBF16, stI64, stI32, stI16, stI8, stU64, stU32, stU16, stU8,
   stBOOL, stC64]

/-- `dtype_to_safetensor_str` from the source: each internal type maps to its
canonical tag.  The C++ `switch` has a throwing `default:` branch, but the
thirteen `case` labels cover the whole `Dtype` enumeration, so the encoder is
total on it and the branch is unreachable. -/
def dtype_to_safetensor_str : Dtype → ByteStr
  | .float32 => stF32
  | .bfloat16 => stBF16
  | .float16 => stF16
  | .int64 => stI64
  | .int32 => stI32
  | .int16 => stI16
  | .int8 => stI8
  | .uint64 => stU64
  | .uint32 => stU32
  | .uint16 => stU16
  | .uint8 => stU8
  | .bool_ => stBOOL
  | .complex64 => stC64

/-- `dtype_from_safetensor_str` from the source: the chain of exact,
case-sensitive string comparisons, in source order; any other string throws
(`none` here; the reader pipeline surfaces it as its unknown-type-tag
failure). -/
def dtype_from_safetensor_str (s : ByteStr) : Option Dtype :=
  if s = stF32 then some .float32
  else if s = stF16 then some .float16
  else if s = stBF16 then some .bfloat16
  else if s = stI64 then some .int64
  else if s = stI32 then some .int32
  else if s = stI16 then some .int16
  else if s = stI8 then some .int8
  else if s = stU64 then some .uint64
  else if s = stU32 then some .uint32
  else if s = stU16 then some .uint16
  else if s = stU8 then some .uint8
  else if s = stBOOL then some .bool_
  else if s = stC64 then some .complex64
  else none

/-- Modelled from the spec: a writer-side RealizedTensor (§3) — the external
tensor runtime's realized, contiguous tensor, of which the writer inspects
shape, dtype, byte size and the raw bytes; the mlx `array` type is not under
`src/`.  Shapes of realized tensors are sequences of non-negative `int` dims. -/
structure Tensor where
  shape : List Nat
  dtype : Dtype
  data : ByteStr
  deriving DecidableEq, Repr

/-- Modelled from the spec: `arr.nbytes()` — the byte size implied by the
shape and the element width (§3 TensorEntry invariant); the mlx `array`
accessors are not under `src/`. -/
def Tensor.nbytes (t : Tensor) : Nat :=
  t.shape.prod * dtypeSize t.dtype

/-- A realized tensor is well formed when its buffer holds exactly `nbytes`
bytes and every dimension fits in a C++ `int`, as mlx arrays guarantee. -/
def Tensor.WF (t : Tensor) : Prop :=
  t.data.length = t.nbytes ∧ ∀ d ∈ t.shape, d < 2 ^ 31

/-! ## The JSON value model (external `nlohmann::json` dependency) -/

mutual
/-- JSON values, as the external JSON library represents them: null, boolean,
integer number, byte string, array, object.  Objects keep member order. -/
inductive Json where
  | null
  | bool (b : Bool)
  | num (n : Int)
  | str (s : ByteStr)
  | arr (elems : JsonArr)
  | obj (members : JsonObj)
  deriving DecidableEq, Repr
/-- A JSON array: a list of JSON values. -/
inductive JsonArr where
  | nil
  | cons (hd : Json) (tl : JsonArr)
  deriving DecidableEq, Repr
/-- A JSON object: an ordered association of byte-string keys to values. -/
inductive JsonObj where
  | nil
  | cons (key : ByteStr) (val : Json) (tl : JsonObj)
  deriving DecidableEq, Repr
end

/-- Member lookup in a JSON object (first binding wins). -/
def JsonObj.lookup : JsonObj → ByteStr → Option Json
  | .nil, _ => none
  | .cons k0 v tl, k => if k0 = k then some v else tl.lookup k

/-- `m[key] = value` on an object: replace the binding in place if the key is
present, append it otherwise. -/
def JsonObj.set : JsonObj → ByteStr → Json → JsonObj
  | .nil, k, v => .cons k v .nil
  | .cons k0 v0 tl, k, v =>
      if k0 = k then .cons k0 v tl else .cons k0 v0 (tl.set k v)

/-- The members of an object as an ordinary list, in member order. -/
def JsonObj.toList : JsonObj → List (ByteStr × Json)
  | .nil => []
  | .cons k v tl => (k, v) :: tl.toList

/-- The keys of an object, in member order. -/
def JsonObj.keys : JsonObj → List ByteStr
  | .nil => []
  | .cons k _ tl => k :: tl.keys

/-- Build an object from an ordinary association list. -/
def JsonObj.ofList : List (ByteStr × Json) → JsonObj
  | [] => .nil
  | (k, v) :: tl => .cons k v (JsonObj.ofList tl)

/-- `j[key] = value` as the writer uses it: on `null` the library converts the
value to an object first (`nlohmann` `operator[]` semantics); the writer only
ever applies it to `null` or object values. -/
def jsonSet (j : Json) (k : ByteStr) (v : Json) : Json :=
  match j with
  | .obj ms => .obj (ms.set k v)
  | _ => .obj (JsonObj.set .nil k v)

/-- A JSON array holding the given naturals as numbers. -/
def jsonArrOfNats : List Nat → JsonArr
  | [] => .nil
  | d :: tl => .cons (.num (d : Int)) (jsonArrOfNats tl)

/-! ## Compact JSON serialization (`json::dump()`) -/

/-- Big-endian decimal digits of `n` (ASCII), pushed onto `acc`; the first
argument is recursion fuel, for which `n` itself always suffices. -/
def natDigitsAux : Nat → Nat → List Nat → List Nat
  | 0, _, acc => acc
  | fuel + 1, n, acc =>
      if n = 0 then acc else natDigitsAux fuel (n / 10) ((n % 10 + 0x30) :: acc)

/-- Decimal ASCII rendering of a natural. -/
def dumpNat (n : Nat) : ByteStr :=
  if n = 0 then [0x30] else natDigitsAux n n []

/-- Decimal ASCII rendering of an integer (a leading minus sign if negative). -/
def dumpInt (i : Int) : ByteStr :=
  if i < 0 then 0x2D :: dumpNat i.natAbs else dumpNat i.toNat

/-- The ASCII byte of a hexadecimal digit (lowercase letters). -/
def hexDigit (d : Nat) : Nat :=
  if d < 10 then d + 0x30 else d + 87

/-- The serializer's escaping of one string byte: quote and backslash get a
backslash escape, the named control escapes are used where they exist, any
other control byte becomes a `\u00XX` escape, and every other byte is copied
verbatim. -/
def escapeByte (c : Nat) : List Nat :=
  if c = 0x22 then [0x5C, 0x22]
  else if c = 0x5C then [0x5C, 0x5C]
  else if c = 0x08 then [0x5C, 0x62]
  else if c = 0x09 then [0x5C, 0x74]
  else if c = 0x0A then [0x5C, 0x6E]
  else if c = 0x0C then [0x5C, 0x66]
  else if c = 0x0D then [0x5C, 0x72]
  else if c < 0x20 then [0x5C, 0x75, 0x30, 0x30, hexDigit (c / 16), hexDigit (c % 16)]
  else [c]

/-- Escape a whole string body. -/
def escapeStr : ByteStr → List Nat
  | [] => []
  | c :: cs => escapeByte c ++ escapeStr cs

/-- A quoted, escaped JSON string. -/
def dumpStr (s : ByteStr) : List Nat :=
  0x22 :: escapeStr s ++ [0x22]

mutual
/-- Compact serialization of a JSON value (no whitespace), as
`json::dump()` emits it. -/
def dumpJson : Json → List Nat
  | .null => [0x6E, 0x75, 0x6C, 0x6C]
  | .bool true => [0x74, 0x72, 0x75, 0x65]
  | .bool false => [0x66, 0x61, 0x6C, 0x73, 0x65]
  | .num n => dumpInt n
  | .str s => dumpStr s
  | .arr es => 0x5B :: dumpArr es ++ [0x5D]
  | .obj ms => 0x7B :: dumpObj ms ++ [0x7D]
/-- Comma-separated element list of an array (without the brackets). -/
def dumpArr : JsonArr → List Nat
  | .nil => []
  | .cons e .nil => dumpJson e
  | .cons e (.cons f tl) => dumpJson e ++ 0x2C :: dumpArr (.cons f tl)
/-- Comma-separated `"key":value` member list of an object (without braces). -/
def dumpObj : JsonObj → List Nat
  | .nil => []
  | .cons k v .nil => dumpStr k ++ 0x3A :: dumpJson v
  | .cons k v (.cons k2 v2 tl) =>
      (dumpStr k ++ 0x3A :: dumpJson v) ++ 0x2C :: dumpObj (.cons k2 v2 tl)
end

/-! ## JSON parsing (`json::parse` on an exact byte range) -/

/-- Is the byte an ASCII decimal digit? -/
def isDigit (c : Nat) : Bool :=
  decide (0x30 ≤ c) && decide (c ≤ 0x39)

/-- Consume a run of decimal digits, folding them onto an accumulator. -/
def parseNatLoop : List Nat → Nat → Nat × List Nat
  | [], acc => (acc, [])
  | c :: rest, acc =>
      if isDigit c = true then parseNatLoop rest (acc * 10 + (c - 0x30))
      else (acc, c :: rest)

/-- Parse a JSON integer number (an optional minus sign, then digits). -/
def parseNum : List Nat → Option (Json × List Nat)
  | [] => none
  | c :: rest =>
      if c = 0x2D then
        match rest with
        | [] => none
        | c2 :: rest2 =>
            if isDigit c2 = true then
              let p := parseNatLoop rest2 (c2 - 0x30)
              some (.num (-(p.1 : Int)), p.2)
            else none
      else if isDigit c = true then
        let p := parseNatLoop rest (c - 0x30)
        some (.num ((p.1 : Int)), p.2)
      else none

/-- Decode one hexadecimal digit byte. -/
def parseHexDig (c : Nat) : Option Nat :=
  if 0x30 ≤ c ∧ c ≤ 0x39 then some (c - 0x30)
  else if 0x61 ≤ c ∧ c ≤ 0x66 then some (c - 87)
  else if 0x41 ≤ c ∧ c ≤ 0x46 then some (c - 55)
  else none

/-- Map a single-character escape to the byte it denotes. -/
def unescapeChar (e : Nat) : Option Nat :=
  if e = 0x22 then some 0x22
  else if e = 0x5C then some 0x5C
  else if e = 0x2F then some 0x2F
  else if e = 0x62 then some 0x08
  else if e = 0x74 then some 0x09
  else if e = 0x6E then some 0x0A
  else if e = 0x66 then some 0x0C
  else if e = 0x72 then some 0x0D
  else none

/-- Parse a string body after the opening quote, up to and including the
closing quote: handles the single-character escapes and `\u00XX` escapes
(escapes outside the byte range are a concern of full Unicode handling in the
external library and are rejected here), rejects raw control bytes. -/
def parseStrBody : List Nat → Option (ByteStr × List Nat)
  | [] => none
  | c :: rest =>
      if c = 0x22 then some ([], rest)
      else if c = 0x5C then
        match rest with
        | [] => none
        | e :: rest2 =>
            if e = 0x75 then
              match rest2 with
              | h1 :: h2 :: h3 :: h4 :: rest3 =>
                  if h1 = 0x30 ∧ h2 = 0x30 then
                    match parseHexDig h3, parseHexDig h4, parseStrBody rest3 with
                    | some hi, some lo, some (s, r) => some ((hi * 16 + lo) :: s, r)
                    | _, _, _ => none
                  else none
              | _ => none
            else
              match unescapeChar e, parseStrBody rest2 with
              | some b, some (s, r) => some (b :: s, r)
              | _, _ => none
      else if c < 0x20 then none
      else
        match parseStrBody rest with
        | some (s, r) => some (c :: s, r)
        | none => none

/-- Recognize the keyword `null` after its leading byte. -/
def parseNullKw : List Nat → Option (Json × List Nat)
  | r1 :: r2 :: r3 :: rr =>
      if r1 = 0x75 ∧ r2 = 0x6C ∧ r3 = 0x6C then some (.null, rr) else none
  | _ => none

/-- Recognize the keyword `true` after its leading byte. -/
def parseTrueKw : List Nat → Option (Json × List Nat)
  | r1 :: r2 :: r3 :: rr =>
      if r1 = 0x72 ∧ r2 = 0x75 ∧ r3 = 0x65 then some (.bool true, rr) else none
  | _ => none

/-- Recognize the keyword `false` after its leading byte. -/
def parseFalseKw : List Nat → Option (Json × List Nat)
  | r1 :: r2 :: r3 :: r4 :: rr =>
      if r1 = 0x61 ∧ r2 = 0x6C ∧ r3 = 0x73 ∧ r4 = 0x65 then some (.bool false, rr)
      else none
  | _ => none

mutual
/-- Parse one JSON value.  The first argument is recursion fuel; for a byte
range of length `L` a budget of `L + 1` always suffices for the values the
serializer emits (proved below). -/
def pv : Nat → List Nat → Option (Json × List Nat)
  | 0, _ => none
  | fuel + 1, input =>
      match input with
      | [] => none
      | c :: rest =>
          if c = 0x22 then
            match parseStrBody rest with
            | some (s, r) => some (.str s, r)
            | none => none
          else if c = 0x5B then
            match rest with
            | [] => none
            | r0 :: rr =>
                if r0 = 0x5D then some (.arr .nil, rr)
                else
                  match pe fuel (r0 :: rr) with
                  | some (es, r) => some (.arr es, r)
                  | none => none
          else if c = 0x7B then
            match rest with
            | [] => none
            | r0 :: rr =>
                if r0 = 0x7D then some (.obj .nil, rr)
                else
                  match pm fuel (r0 :: rr) with
                  | some (ms, r) => some (.obj ms, r)
                  | none => none
          else if c = 0x6E then parseNullKw rest
          else if c = 0x74 then parseTrueKw rest
          else if c = 0x66 then parseFalseKw rest
          else if c = 0x2D ∨ isDigit c = true then parseNum (c :: rest)
          else none
/-- Parse the elements of a non-empty array after the opening bracket, up to
and including the closing bracket. -/
def pe : Nat → List Nat → Option (JsonArr × List Nat)
  | 0, _ => none
  | fuel + 1, input =>
      match pv fuel input with
      | none => none
      | some (v, r) =>
          match r with
          | [] => none
          | sep :: r2 =>
              if sep = 0x2C then
                match pe fuel r2 with
                | some (es, r3) => some (.cons v es, r3)
                | none => none
              else if sep = 0x5D then some (.cons v .nil, r2)
              else none
/-- Parse the members of a non-empty object after the opening brace, up to
and including the closing brace. -/
def pm : Nat → List Nat → Option (JsonObj × List Nat)
  | 0, _ => none
  | fuel + 1, input =>
      match input with
      | [] => none
      | c0 :: rest =>
          if c0 = 0x22 then
            match parseStrBody rest with
            | none => none
            | some (k, r0) =>
                match r0 with
                | [] => none
                | c1 :: r1 =>
                    if c1 = 0x3A then
                      match pv fuel r1 with
                      | none => none
                      | some (v, r2) =>
                          match r2 with
                          | [] => none
                          | sep :: r3 =>
                              if sep = 0x2C then
                                match pm fuel r3 with
                                | some (ms, r4) => some (.cons k v ms, r4)
                                | none => none
                              else if sep = 0x7D then some (.cons k v .nil, r3)
                              else none
                    else none
          else none
end

/-- Parse a complete byte range as one JSON value, requiring the whole range
to be consumed, as `json::parse(first, last)` does. -/
def Json.parse (bs : List Nat) : Option Json :=
  match pv (bs.length + 1) bs with
  | some (j, []) => some j
  | _ => none

/-! ## Little-endian 64-bit framing -/

/-- The 8 little-endian bytes of a 64-bit unsigned value. -/
def writeLE64 (n : Nat) : List Nat :=
  [n % 256, n / 256 % 256, n / 256 ^ 2 % 256, n / 256 ^ 3 % 256,
   n / 256 ^ 4 % 256, n / 256 ^ 5 % 256, n / 256 ^ 6 % 256, n / 256 ^ 7 % 256]

/-- Read the first 8 bytes of a stream as an unsigned little-endian integer
(the `uint64_t jsonHeaderLength` read). -/
def readLE64 (bs : List Nat) : Nat :=
  (bs.take 8).foldr (fun b acc => b % 256 + 256 * acc) 0

/-! ## The writer pipeline (`save_safetensors`) -/

/-- The reserved header key `"__metadata__"` as bytes. -/
def metadataKey : ByteStr :=
  [0x5F, 0x5F, 0x6D, 0x65, 0x74, 0x61, 0x64, 0x61, 0x74, 0x61, 0x5F, 0x5F]

/-- The entry field key `"dtype"` as bytes. -/
def dtypeKey : ByteStr := [0x64, 0x74, 0x79, 0x70, 0x65]

/-- The entry field key `"shape"` as bytes. -/
def shapeKey : ByteStr := [0x73, 0x68, 0x61, 0x70, 0x65]

/-- The entry field key `"data_offsets"` as bytes. -/
def dataOffsetsKey : ByteStr :=
  [0x64, 0x61, 0x74, 0x61, 0x5F, 0x6F, 0x66, 0x66, 0x73, 0x65, 0x74, 0x73]

/-- The writer's error taxonomy reachable from the modelled byte content:
`EmptyTensor` (§7), carrying the offending tensor name as the thrown message
does. -/
inductive SaveErr where
  | emptyTensor (key : ByteStr)
  deriving DecidableEq, Repr

/-- Outcome of a save: either the full byte content written to the stream, or
an error together with the bytes written before the throw. -/
inductive SaveResult where
  | ok (out : List Nat)
  | err (e : SaveErr) (written : List Nat)
  deriving DecidableEq, Repr

/-- The `json _metadata` construction: a default-constructed (null) value on
which `_metadata[key] = value` is applied per metadata pair; with no pairs it
stays null. -/
def buildMetaJson (md : List (ByteStr × ByteStr)) : Json :=
  md.foldl (fun j kv => jsonSet j kv.1 (.str kv.2)) Json.null

/-- The header entry object for one tensor at a payload offset: the writer
sets `dtype`, `shape` and `data_offsets` on a fresh value in that order. -/
def entryJson (t : Tensor) (off : Nat) : Json :=
  jsonSet
    (jsonSet (jsonSet Json.null dtypeKey (.str (dtype_to_safetensor_str t.dtype)))
      shapeKey (.arr (jsonArrOfNats t.shape)))
    dataOffsetsKey
    (.arr (.cons (.num (off : Int)) (.cons (.num ((off + t.nbytes : Nat) : Int)) .nil)))

/-- The writer's single pass over the tensor collection: assign contiguous
`data_offsets` from a running offset and reject any zero-byte tensor with the
name of the first offender (the loop throws before anything is written). -/
def mkEntries : Nat → List (ByteStr × Tensor) → Except ByteStr (List (ByteStr × Json))
  | _, [] => .ok []
  | off, (k, t) :: rest =>
      if t.nbytes = 0 then .error k
      else
        match mkEntries (off + t.nbytes) rest with
        | .ok es => .ok ((k, entryJson t off) :: es)
        | .error k2 => .error k2

/-- The header object: `parent["__metadata__"] = _metadata` on a fresh value,
then one `parent[name] = entry` per tensor, in the writer's iteration order. -/
def buildHeader (md : List (ByteStr × ByteStr)) (entries : List (ByteStr × Json)) : Json :=
  entries.foldl (fun p kv => jsonSet p kv.1 kv.2)
    (jsonSet Json.null metadataKey (buildMetaJson md))

/-- The payload region: each tensor's `nbytes` raw bytes, back to back, in the
same iteration order as the offset pass. -/
def payloadBytes : List (ByteStr × Tensor) → List Nat
  | [] => []
  | (_, t) :: rest => t.data.take t.nbytes ++ payloadBytes rest

/-- `save_safetensors` on a writable stream: materialization of the tensors is
the external runtime's no-op on already-realized `Tensor` values; then the
offset pass (which throws `EmptyTensor` before anything is written), then the
writes: the 8-byte little-endian header length, the header bytes, and the
payload, in that order. -/
def save_safetensors (a : List (ByteStr × Tensor)) (metadata : List (ByteStr × ByteStr)) :
    SaveResult :=
  match mkEntries 0 a with
  | .error k => .err (.emptyTensor k) []
  | .ok entries =>
      let header := dumpJson (buildHeader metadata entries)
      .ok (writeLE64 header.length ++ header ++ payloadBytes a)

/-- The `".safetensors"` suffix as bytes (12 characters). -/
def stSuffix : ByteStr :=
  [0x2E, 0x73, 0x61, 0x66, 0x65, 0x74, 0x65, 0x6E, 0x73, 0x6F, 0x72, 0x73]

/-- The filename normalization of the file-based `save_safetensors` overload:
append `".safetensors"` unless the name is at least 12 characters long and its
last 12 characters are exactly that suffix. -/
def normalizeSafetensorsName (file : ByteStr) : ByteStr :=
  if file.length < 12 ∨ file.drop (file.length - 12) ≠ stSuffix then
    file ++ stSuffix
  else file

/-- The file-based `save_safetensors` overload: normalize the destination name
and serialize to a writer on it with unchanged write semantics.  The result
pairs the file name actually used with the bytes written to it. -/
def save_safetensors_to_file (file : ByteStr) (a : List (ByteStr × Tensor))
    (metadata : List (ByteStr × ByteStr)) : ByteStr × SaveResult :=
  (normalizeSafetensorsName file, save_safetensors a metadata)

/-! ## The reader pipeline (`load_safetensors`) -/

/-- The reader's error taxonomy reachable from the modelled byte content (§7):
invalid header length, malformed header (not valid JSON or not an object),
missing entry field, type mismatch on a field or metadata value, unknown
dtype tag. -/
inductive LoadErr where
  | invalidHeaderLength
  | malformedHeader
  | missingField
  | typeMismatch
  | unknownTypeTag
  deriving DecidableEq, Repr

/-- Modelled from the spec: a reader-side LazyTensorHandle (§3) — the deferred
`Load` graph node of the external tensor runtime (mlx/primitives, not under
`src/`), bound to an absolute stream offset, a shape and a dtype, with no
bytes read at creation. -/
structure LazyHandle where
  offset : Nat
  shape : List Int
  dtype : Dtype
  deriving DecidableEq, Repr

/-- Byte size of the tensor a handle describes, from its shape and dtype. -/
def LazyHandle.nbytes (h : LazyHandle) : Nat :=
  h.shape.prod.toNat * dtypeSize h.dtype

/-- Modelled from the spec: realizing a lazy handle performs the single
deferred read — `nbytes` bytes from the bound stream at the bound offset
(§4.3 step 5; the `Load` primitive is not under `src/`). -/
def realizeHandle (stream : List Nat) (h : LazyHandle) : ByteStr :=
  (stream.drop h.offset).take h.nbytes

/-- `item.value().at(key)`: a type error on a non-object, an out-of-range
(missing-field) error on an absent key. -/
def getField (j : Json) (k : ByteStr) : Except LoadErr Json :=
  match j with
  | .obj ms =>
      match ms.lookup k with
      | some v => .ok v
      | none => .error .missingField
  | _ => .error .typeMismatch

/-- Implicit conversion of a JSON value to `std::string`: only an actual JSON
string converts; anything else throws a type error. -/
def asString : Json → Except LoadErr ByteStr
  | .str s => .ok s
  | _ => .error .typeMismatch

/-- A JSON value as an array, or a type error. -/
def asJsonArr : Json → Except LoadErr JsonArr
  | .arr es => .ok es
  | _ => .error .typeMismatch

/-- `static_cast` of an integer JSON number to a C++ 32-bit `int`. -/
def toInt32 (i : Int) : Int :=
  (i + 2 ^ 31) % 2 ^ 32 - 2 ^ 31

/-- Conversion of a JSON array to `std::vector<int>` (the `shape` field):
every element must be a number; values are taken modulo the 32-bit range. -/
def asIntArr : JsonArr → Except LoadErr (List Int)
  | .nil => .ok []
  | .cons (.num n) tl =>
      match asIntArr tl with
      | .ok xs => .ok (toInt32 n :: xs)
      | .error e => .error e
  | .cons _ _ => .error .typeMismatch

/-- Conversion of a JSON array to `std::vector<size_t>` (the `data_offsets`
field): every element must be a number; values are taken modulo 2^64. -/
def asSizeArr : JsonArr → Except LoadErr (List Nat)
  | .nil => .ok []
  | .cons (.num n) tl =>
      match asSizeArr tl with
      | .ok xs => .ok ((n % (2 ^ 64 : Int)).toNat :: xs)
      | .error e => .error e
  | .cons _ _ => .error .typeMismatch

/-- Decode one tensor entry of the header into a lazy handle, performing the
field accesses and conversions in source order: `at("dtype")` to string,
`at("shape")` to `vector<int>`, `at("data_offsets")` to `vector<size_t>`,
then the dtype tag lookup (an unknown tag throws), then
`offset + data_offsets.at(0)` (an empty offsets vector is an out-of-range
access, surfaced as a type mismatch of the 2-tuple shape). -/
def decodeEntry (base : Nat) (v : Json) : Except LoadErr LazyHandle := do
  let dtypeJ ← getField v dtypeKey
  let dtypeStr ← asString dtypeJ
  let shapeJ ← getField v shapeKey
  let shapeA ← asJsonArr shapeJ
  let shape ← asIntArr shapeA
  let offsJ ← getField v dataOffsetsKey
  let offsA ← asJsonArr offsJ
  let offs ← asSizeArr offsA
  let dt ← match dtype_from_safetensor_str dtypeStr with
    | some d => Except.ok d
    | none => Except.error LoadErr.unknownTypeTag
  let off0 ← match offs with
    | o :: _ => Except.ok o
    | [] => Except.error LoadErr.typeMismatch
  return { offset := base + off0, shape := shape, dtype := dt }

/-- `items()` of a JSON value, as the metadata loop iterates it: an object
yields its members, null yields nothing, an array yields index-keyed
elements, and any other primitive yields itself under an empty key. -/
def enumArrItems (i : Nat) : JsonArr → List (ByteStr × Json)
  | .nil => []
  | .cons v tl => (dumpNat i, v) :: enumArrItems (i + 1) tl

/-- See `enumArrItems`: the `items()` view of one JSON value. -/
def metaItems : Json → List (ByteStr × Json)
  | .obj ms => ms.toList
  | .null => []
  | .arr es => enumArrItems 0 es
  | v => [([], v)]

/-- Insertion into an `unordered_map` via `insert`: the first binding of a key
wins; iteration order is modelled as insertion order. -/
def insertNew {α : Type} : List (ByteStr × α) → ByteStr → α → List (ByteStr × α)
  | [], k, v => [(k, v)]
  | (k0, v0) :: tl, k, v =>
      if k0 = k then (k0, v0) :: tl else (k0, v0) :: insertNew tl k v

/-- Association lookup in the returned mappings. -/
def alookup {α : Type} : List (ByteStr × α) → ByteStr → Option α
  | [], _ => none
  | (k0, v) :: tl, k => if k0 = k then some v else alookup tl k

/-- The metadata loop body: insert each `items()` entry into the string map,
converting the value to `std::string` (a non-string value throws a type
error). -/
def collectMeta : List (ByteStr × Json) → List (ByteStr × ByteStr) →
    Except LoadErr (List (ByteStr × ByteStr))
  | [], acc => .ok acc
  | (k, v) :: rest, acc =>
      match v with
      | .str s => collectMeta rest (insertNew acc k s)
      | _ => .error .typeMismatch

/-- The reader's loop over the header members, in member order: the reserved
`__metadata__` key feeds the metadata map, every other key decodes to a lazy
handle inserted into the result map; any failure aborts the whole load. -/
def processItems (base : Nat) :
    List (ByteStr × Json) → List (ByteStr × LazyHandle) → List (ByteStr × ByteStr) →
    Except LoadErr (List (ByteStr × LazyHandle) × List (ByteStr × ByteStr))
  | [], res, md => .ok (res, md)
  | (k, v) :: rest, res, md =>
      if k = metadataKey then
        match collectMeta (metaItems v) md with
        | .ok md2 => processItems base rest res md2
        | .error e => .error e
      else
        match decodeEntry base v with
        | .ok h => processItems base rest (insertNew res k h) md
        | .error e => .error e

/-- `load_safetensors` on a readable stream: read the 8-byte little-endian
header length `L`, fail with the invalid-header-length error unless
`0 < L < 100000000`, parse the next `L` bytes as a JSON object (otherwise the
malformed-header error), then build the name→handle and metadata maps with
payload base offset `L + 8`. -/
def load_safetensors (stream : List Nat) :
    Except LoadErr (List (ByteStr × LazyHandle) × List (ByteStr × ByteStr)) :=
  let L := readLE64 stream
  if L = 0 ∨ 100000000 ≤ L then .error .invalidHeaderLength
  else
    match Json.parse ((stream.drop 8).take L) with
    | some (.obj ms) => processItems (L + 8) ms.toList [] []
    | some _ => .error .malformedHeader
    | none => .error .malformedHeader

/-! ## Auxiliary notions used by the statements and proofs -/

/-- Big-endian ASCII decimal digits of a natural (empty for zero). -/
def digitsBE (n : Nat) : List Nat :=
  ((Nat.digits 10 n).map (· + 0x30)).reverse

/-- A byte list that cannot extend a decimal literal: empty, or starting with
a non-digit.  Every continuation the serializer places after a number (a
comma, a closing bracket or brace, or the end of the range) satisfies it. -/
def NumSep : List Nat → Prop
  | [] => True
  | c :: _ => isDigit c = false

mutual
/-- Recursion budget the parser needs for a serialized value. -/
def need : Json → Nat
  | .null => 1
  | .bool _ => 1
  | .num _ => 1
  | .str _ => 1
  | .arr .nil => 1
  | .arr (.cons e tl) => needA (.cons e tl) + 1
  | .obj .nil => 1
  | .obj (.cons k v tl) => needO (.cons k v tl) + 1
/-- Recursion budget for an element list. -/
def needA : JsonArr → Nat
  | .nil => 0
  | .cons e tl => need e + needA tl + 1
/-- Recursion budget for a member list. -/
def needO : JsonObj → Nat
  | .nil => 0
  | .cons _ v tl => need v + needO tl + 1
end

/-- Running sum of the byte sizes of the first `i` tensors of the writer's
iteration order. -/
def psum (a : List (ByteStr × Tensor)) (i : Nat) : Nat :=
  ((a.take i).map (fun kt => kt.2.nbytes)).sum

/-- The `data_offsets` pair recorded in a header entry object, when the entry
carries a two-number offsets array. -/
def entryOffsets (j : Json) : Option (Int × Int) :=
  match j with
  | .obj ms =>
      match ms.lookup dataOffsetsKey with
      | some (.arr (.cons (.num a) (.cons (.num b) .nil))) => some (a, b)
      | _ => none
  | _ => none

/-- Does every element of the array hold a JSON number? -/
def arrAllNums : JsonArr → Bool
  | .nil => true
  | .cons (.num _) tl => arrAllNums tl
  | .cons _ _ => false

/-- Structural well-formedness of a header tensor entry: a string `dtype`, a
numeric-array `shape`, and a non-empty numeric-array `data_offsets`. -/
def entryWF (v : Json) : Bool :=
  match v with
  | .obj ms =>
      (match ms.lookup dtypeKey with
       | some (.str _) => true
       | _ => false) &&
      (match ms.lookup shapeKey with
       | some (.arr es) => arrAllNums es
       | _ => false) &&
      (match ms.lookup dataOffsetsKey with
       | some (.arr (.cons (.num _) tl)) => arrAllNums tl
       | _ => false)
  | _ => false

/-- The `dtype` tag string a header entry carries, if any. -/
def entryDtype (v : Json) : Option ByteStr :=
  match v with
  | .obj ms =>
      match ms.lookup dtypeKey with
      | some (.str s) => some s
      | _ => none
  | _ => none

/-- Does every `items()` entry of a metadata value hold a JSON string? -/
def metaAllStr (v : Json) : Bool :=
  (metaItems v).all fun kv =>
    match kv.2 with
    | .str _ => true
    | _ => false

/-! ## Concrete fixtures for the verification scenarios -/

/-- The tensor name `"w"` of the spec's concrete scenario. -/
def wName : ByteStr := [0x77]

/-- A 2-by-2 float32 tensor with 16 distinct payload bytes. -/
def wTensor : Tensor :=
  ⟨[2, 2], .float32, [0, 1, 2, 3, 4, 5, 6, 7, 8, 9, 10, 11, 12, 13, 14, 15]⟩

/-- The metadata dictionary of the concrete scenario: `format` maps to `test`. -/
def wMeta : List (ByteStr × ByteStr) :=
  [([0x66, 0x6F, 0x72, 0x6D, 0x61, 0x74], [0x74, 0x65, 0x73, 0x74])]

/-- The header entries the writer computes for the concrete scenario. -/
def wEntries : List (ByteStr × Json) := [(wName, entryJson wTensor 0)]

/-- The container bytes the writer emits for the concrete scenario. -/
def wOut : List Nat :=
  writeLE64 (dumpJson (buildHeader wMeta wEntries)).length ++
    dumpJson (buildHeader wMeta wEntries) ++ payloadBytes [(wName, wTensor)]

/-- A well-formed header entry whose dtype tag is the unknown string `"Q4"`. -/
def q4Entry : Json :=
  .obj (.cons dtypeKey (.str [0x51, 0x34])
    (.cons shapeKey (.arr (jsonArrOfNats [1]))
      (.cons dataOffsetsKey (.arr (.cons (.num 0) (.cons (.num 1) .nil))) .nil)))

/-- Header members with empty metadata and one `"t"` entry tagged `"Q4"`. -/
def q4Members : JsonObj :=
  .cons metadataKey (.obj .nil) (.cons [0x74] q4Entry .nil)

/-- A container whose header carries the `"Q4"` dtype tag. -/
def q4Stream : List Nat :=
  writeLE64 (dumpJson (Json.obj q4Members)).length ++ dumpJson (Json.obj q4Members) ++ [0x00]

/-- Header members whose `__metadata__` object binds `"a"` to the number 3. -/
def numMetaMembers : JsonObj :=
  .cons metadataKey (.obj (.cons [0x61] (.num 3) .nil)) .nil

/-- A container whose metadata carries a non-string value. -/
def numMetaStream : List Nat :=
  writeLE64 (dumpJson (Json.obj numMetaMembers)).length ++ dumpJson (Json.obj numMetaMembers)

/-- A one-byte uint8 tensor used to probe the reserved name `__metadata__`. -/
def metaNamedTensor : Tensor := ⟨[1], .uint8, [7]⟩

/-! ## Decimal round trip -/

theorem natDigitsAux_eq (fuel : Nat) :
    ∀ n acc, n ≤ fuel → natDigitsAux fuel n acc = digitsBE n ++ acc := by
  induction fuel with
  | zero =>
      intro n acc hn
      have h0 : n = 0 := Nat.le_zero.mp hn
      subst h0
      simp [natDigitsAux, digitsBE]
  | succ f ih =>
      intro n acc hn
      by_cases h0 : n = 0
      · subst h0
        simp [natDigitsAux, digitsBE]
      · rw [natDigitsAux, if_neg h0]
        have hdiv : n / 10 ≤ f := by
          have := Nat.div_lt_self (Nat.pos_of_ne_zero h0) (by norm_num : 1 < 10)
          omega
        rw [ih (n / 10) _ hdiv]
        rw [digitsBE, digitsBE,
          Nat.digits_def' (by norm_num : 1 < 10) (Nat.pos_of_ne_zero h0)]
        simp

theorem digitsBE_mem_digit {n c : Nat} (hc : c ∈ digitsBE n) : 0x30 ≤ c ∧ c ≤ 0x39 := by
  simp only [digitsBE, List.mem_reverse, List.mem_map] at hc
  obtain ⟨d, hd, rfl⟩ := hc
  have := Nat.digits_lt_base (by norm_num : 2 ≤ 10) hd
  omega

theorem dumpNat_eq (n : Nat) : dumpNat n = if n = 0 then [0x30] else digitsBE n := by
  rw [dumpNat]
  by_cases h0 : n = 0
  · simp [h0]
  · simp only [h0, if_false]
    rw [natDigitsAux_eq n n [] (le_refl n), List.append_nil]

theorem isDigit_iff {c : Nat} : isDigit c = true ↔ 0x30 ≤ c ∧ c ≤ 0x39 := by
  simp [isDigit]

theorem dumpNat_all_digits {n : Nat} : ∀ c ∈ dumpNat n, isDigit c = true := by
  intro c hc
  rw [dumpNat_eq] at hc
  by_cases h0 : n = 0
  · simp [h0] at hc
    subst hc
    rfl
  · simp only [h0, if_false] at hc
    exact isDigit_iff.mpr (digitsBE_mem_digit hc)

theorem dumpNat_ne_nil (n : Nat) : dumpNat n ≠ [] := by
  rw [dumpNat_eq]
  by_cases h0 : n = 0
  · simp [h0]
  · simp only [h0, if_false, digitsBE]
    simp [Nat.digits_ne_nil_iff_ne_zero, h0]

theorem parseNatLoop_run (ds : List Nat) :
    ∀ acc rest, (∀ c ∈ ds, isDigit c = true) → NumSep rest →
      parseNatLoop (ds ++ rest) acc =
        (ds.foldl (fun x c => x * 10 + (c - 0x30)) acc, rest) := by
  induction ds with
  | nil =>
      intro acc rest _ hr
      cases rest with
      | nil => rfl
      | cons c cs =>
          have hc : isDigit c = false := hr
          simp [parseNatLoop, hc]
  | cons d ds ih =>
      intro acc rest hds hr
      have hd : isDigit d = true := hds d (by simp)
      simp only [List.cons_append, parseNatLoop, hd, if_pos, List.append_eq]
      rw [ih _ rest (fun c hc => hds c (by simp [hc])) hr]
      simp

theorem foldl_digitsBE (n : Nat) :
    (digitsBE n).foldl (fun x c => x * 10 + (c - 0x30)) 0 = n := by
  rw [digitsBE, List.foldl_reverse]
  have key : ∀ ds : List Nat,
      (ds.map (· + 0x30)).foldr (fun c x => x * 10 + (c - 0x30)) 0 =
        Nat.ofDigits 10 ds := by
    intro ds
    induction ds with
    | nil => simp [Nat.ofDigits]
    | cons d tl ih =>
        simp only [List.map_cons, List.foldr_cons, ih, Nat.ofDigits_cons]
        omega
  rw [key, Nat.ofDigits_digits]

theorem parseNat_core (n : Nat) (rest : List Nat) (hr : NumSep rest) :
    ∃ d ds, dumpNat n = d :: ds ∧ isDigit d = true ∧ d ≠ 0x2D ∧
      parseNatLoop (ds ++ rest) (d - 0x30) = (n, rest) := by
  obtain ⟨d, ds, hds⟩ : ∃ d ds, dumpNat n = d :: ds := by
    cases h : dumpNat n with
    | nil => exact absurd h (dumpNat_ne_nil n)
    | cons d ds => exact ⟨d, ds, rfl⟩
  have hall : ∀ c ∈ d :: ds, isDigit c = true := by
    rw [← hds]
    exact dumpNat_all_digits
  have hd : isDigit d = true := hall d (by simp)
  have hd48 : 0x30 ≤ d ∧ d ≤ 0x39 := isDigit_iff.mp hd
  refine ⟨d, ds, hds, hd, by omega, ?_⟩
  rw [parseNatLoop_run ds (d - 0x30) rest (fun c hc => hall c (by simp [hc])) hr]
  have hfold : (d :: ds).foldl (fun x c => x * 10 + (c - 0x30)) 0 = n := by
    rw [← hds, dumpNat_eq]
    by_cases h0 : n = 0
    · subst h0
      decide
    · simp only [h0, if_false]
      exact foldl_digitsBE n
  simp only [List.foldl_cons] at hfold
  rw [show 0 * 10 + (d - 0x30) = d - 0x30 by omega] at hfold
  rw [hfold]

theorem parseNum_dumpInt (i : Int) (rest : List Nat) (hr : NumSep rest) :
    parseNum (dumpInt i ++ rest) = some (.num i, rest) := by
  by_cases hneg : i < 0
  · obtain ⟨d, ds, hds, hd, _, hloop⟩ := parseNat_core i.natAbs rest hr
    rw [dumpInt, if_pos hneg, hds]
    have hstep : parseNum (0x2D :: (d :: ds) ++ rest) =
        (if isDigit d = true then
          let p := parseNatLoop (ds ++ rest) (d - 0x30)
          some (.num (-(p.1 : Int)), p.2)
        else none) := rfl
    rw [List.cons_append] at hstep ⊢
    rw [hstep, if_pos hd]
    simp only [hloop]
    have habs : -((i.natAbs : Nat) : Int) = i := by omega
    simpa using habs
  · obtain ⟨d, ds, hds, hd, hd45, hloop⟩ := parseNat_core i.toNat rest hr
    rw [dumpInt, if_neg hneg, hds]
    have hstep : parseNum ((d :: ds) ++ rest) =
        (if d = 0x2D then
          match ds ++ rest with
          | [] => none
          | c2 :: rest2 =>
              if isDigit c2 = true then
                let p := parseNatLoop rest2 (c2 - 0x30)
                some (.num (-(p.1 : Int)), p.2)
              else none
        else if isDigit d = true then
          let p := parseNatLoop (ds ++ rest) (d - 0x30)
          some (.num ((p.1 : Nat) : Int), p.2)
        else none) := rfl
    rw [hstep, if_neg hd45, if_pos hd]
    simp only [hloop]
    have htn : ((i.toNat : Nat) : Int) = i := by omega
    simp [htn]

/-! ## String escaping round trip -/

theorem parseHexDig_hexDigit (d : Nat) (hd : d < 16) :
    parseHexDig (hexDigit d) = some d := by
  interval_cases d <;> rfl

theorem parseStrBody_escape (s : ByteStr) :
    ∀ rest, parseStrBody (escapeStr s ++ 0x22 :: rest) = some (s, rest) := by
  induction s with
  | nil => intro rest; rw [escapeStr, List.nil_append, parseStrBody.eq_def]; simp
  | cons c cs ih =>
      intro rest
      rw [escapeStr, List.append_assoc]
      have htl := ih rest
      by_cases h1 : c = 0x22
      · subst h1
        show parseStrBody (0x5C :: 0x22 :: (escapeStr cs ++ 0x22 :: rest)) = _
        rw [parseStrBody.eq_def]
        norm_num [unescapeChar, htl]
      · by_cases h2 : c = 0x5C
        · subst h2
          show parseStrBody (0x5C :: 0x5C :: (escapeStr cs ++ 0x22 :: rest)) = _
          rw [parseStrBody.eq_def]
          norm_num [unescapeChar, htl]
        · by_cases h3 : c = 0x08
          · subst h3
            show parseStrBody (0x5C :: 0x62 :: (escapeStr cs ++ 0x22 :: rest)) = _
            rw [parseStrBody.eq_def]
            norm_num [unescapeChar, htl]
          · by_cases h4 : c = 0x09
            · subst h4
              show parseStrBody (0x5C :: 0x74 :: (escapeStr cs ++ 0x22 :: rest)) = _
              rw [parseStrBody.eq_def]
              norm_num [unescapeChar, htl]
            · by_cases h5 : c = 0x0A
              · subst h5
                show parseStrBody (0x5C :: 0x6E :: (escapeStr cs ++ 0x22 :: rest)) = _
                rw [parseStrBody.eq_def]
                norm_num [unescapeChar, htl]
              · by_cases h6 : c = 0x0C
                · subst h6
                  show parseStrBody (0x5C :: 0x66 :: (escapeStr cs ++ 0x22 :: rest)) = _
                  rw [parseStrBody.eq_def]
                  norm_num [unescapeChar, htl]
                · by_cases h7 : c = 0x0D
                  · subst h7
                    show parseStrBody (0x5C :: 0x72 :: (escapeStr cs ++ 0x22 :: rest)) = _
                    rw [parseStrBody.eq_def]
                    norm_num [unescapeChar, htl]
                  · by_cases h8 : c < 0x20
                    · rw [escapeByte, if_neg h1, if_neg h2, if_neg h3, if_neg h4,
                        if_neg h5, if_neg h6, if_neg h7, if_pos h8]
                      show parseStrBody (0x5C :: 0x75 :: 0x30 :: 0x30 ::
                        hexDigit (c / 16) :: hexDigit (c % 16) ::
                        (escapeStr cs ++ 0x22 :: rest)) = _
                      rw [parseStrBody.eq_def]
                      norm_num [parseHexDig_hexDigit (c / 16) (by omega),
                        parseHexDig_hexDigit (c % 16) (by omega), htl]
                      omega
                    · rw [escapeByte, if_neg h1, if_neg h2, if_neg h3, if_neg h4,
                        if_neg h5, if_neg h6, if_neg h7, if_neg h8]
                      show parseStrBody (c :: (escapeStr cs ++ 0x22 :: rest)) = _
                      rw [parseStrBody.eq_def]
                      dsimp only
                      rw [if_neg h1, if_neg h2, if_neg h8, htl]


/-! ## Serialization round trip for JSON values -/

theorem need_pos (j : Json) : 1 ≤ need j := by
  cases j with
  | arr es => cases es <;> simp [need, needA]
  | obj ms => cases ms <;> simp [need, needO]
  | _ => simp [need]

theorem needA_pos (e : Json) (tl : JsonArr) : 1 ≤ needA (.cons e tl) := by
  simp [needA]

theorem needO_pos (k : ByteStr) (v : Json) (tl : JsonObj) : 1 ≤ needO (.cons k v tl) := by
  simp [needO]

theorem dumpInt_head (i : Int) :
    ∃ c cs, dumpInt i = c :: cs ∧ (c = 0x2D ∨ isDigit c = true) := by
  by_cases hneg : i < 0
  · exact ⟨0x2D, dumpNat i.natAbs, by rw [dumpInt, if_pos hneg], Or.inl rfl⟩
  · obtain ⟨c, cs, hcs⟩ : ∃ c cs, dumpNat i.toNat = c :: cs := by
      cases h : dumpNat i.toNat with
      | nil => exact absurd h (dumpNat_ne_nil _)
      | cons c cs => exact ⟨c, cs, rfl⟩
    refine ⟨c, cs, by rw [dumpInt, if_neg hneg, hcs], Or.inr ?_⟩
    exact dumpNat_all_digits c (hcs ▸ List.mem_cons_self c cs)

theorem dumpJson_head (j : Json) :
    ∃ c cs, dumpJson j = c :: cs ∧ c ≠ 0x5D ∧ c ≠ 0x7D := by
  cases j with
  | null =>
      exact ⟨0x6E, [0x75, 0x6C, 0x6C], by simp [dumpJson], by omega, by omega⟩
  | bool b =>
      cases b with
      | true => exact ⟨0x74, [0x72, 0x75, 0x65], by simp [dumpJson], by omega, by omega⟩
      | false =>
          exact ⟨0x66, [0x61, 0x6C, 0x73, 0x65], by simp [dumpJson], by omega, by omega⟩
  | num n =>
      obtain ⟨c, cs, hcs, hc⟩ := dumpInt_head n
      refine ⟨c, cs, by simp [dumpJson, hcs], ?_, ?_⟩ <;>
        rcases hc with h | h
      · omega
      · have := isDigit_iff.mp h; omega
      · omega
      · have := isDigit_iff.mp h; omega
  | str s =>
      exact ⟨0x22, escapeStr s ++ [0x22], by simp [dumpJson, dumpStr], by omega, by omega⟩
  | arr es =>
      exact ⟨0x5B, dumpArr es ++ [0x5D], by simp [dumpJson], by omega, by omega⟩
  | obj ms =>
      exact ⟨0x7B, dumpObj ms ++ [0x7D], by simp [dumpJson], by omega, by omega⟩

theorem dumpArr_cons_split (e : Json) (tl : JsonArr) :
    ∃ x, dumpArr (.cons e tl) = dumpJson e ++ x := by
  cases tl with
  | nil => exact ⟨[], by simp [dumpArr]⟩
  | cons f tl' => exact ⟨0x2C :: dumpArr (.cons f tl'), by simp [dumpArr]⟩

theorem dumpObj_cons_head (k : ByteStr) (v : Json) (tl : JsonObj) :
    ∃ x, dumpObj (.cons k v tl) = 0x22 :: (escapeStr k ++ 0x22 :: x) := by
  cases tl with
  | nil =>
      refine ⟨0x3A :: dumpJson v, ?_⟩
      simp [dumpObj, dumpStr]
  | cons k2 v2 tl' =>
      refine ⟨0x3A :: (dumpJson v ++ 0x2C :: dumpObj (.cons k2 v2 tl')), ?_⟩
      simp [dumpObj, dumpStr]

theorem parse_dump_fuel (fuel : Nat) :
    (∀ j rest, need j ≤ fuel → NumSep rest →
      pv fuel (dumpJson j ++ rest) = some (j, rest)) ∧
    (∀ es rest, es ≠ JsonArr.nil → needA es ≤ fuel →
      pe fuel (dumpArr es ++ 0x5D :: rest) = some (es, rest)) ∧
    (∀ ms rest, ms ≠ JsonObj.nil → needO ms ≤ fuel →
      pm fuel (dumpObj ms ++ 0x7D :: rest) = some (ms, rest)) := by
  induction fuel with
  | zero =>
      refine ⟨?_, ?_, ?_⟩
      · intro j rest hn _
        exact absurd (le_trans (need_pos j) hn) (by omega)
      · intro es rest hne hn
        cases es with
        | nil => exact absurd rfl hne
        | cons e tl => exact absurd (le_trans (needA_pos e tl) hn) (by omega)
      · intro ms rest hne hn
        cases ms with
        | nil => exact absurd rfl hne
        | cons k v tl => exact absurd (le_trans (needO_pos k v tl) hn) (by omega)
  | succ f ih =>
      obtain ⟨ihv, ihe, ihm⟩ := ih
      refine ⟨?_, ?_, ?_⟩
      · intro j rest hn hsep
        cases j with
        | null =>
            rw [show dumpJson Json.null = [0x6E, 0x75, 0x6C, 0x6C] from by simp [dumpJson]]
            simp [pv, parseNullKw]
        | bool b =>
            cases b with
            | true =>
                rw [show dumpJson (Json.bool true) = [0x74, 0x72, 0x75, 0x65] from by
                  simp [dumpJson]]
                simp [pv, parseTrueKw]
            | false =>
                rw [show dumpJson (Json.bool false) = [0x66, 0x61, 0x6C, 0x73, 0x65] from by
                  simp [dumpJson]]
                simp [pv, parseFalseKw]
        | num n =>
            obtain ⟨c, cs, hcs, hc⟩ := dumpInt_head n
            have hdump : dumpJson (Json.num n) = c :: cs := by simp [dumpJson, hcs]
            have hc22 : ¬ c = 0x22 := by
              rcases hc with h | h
              · omega
              · have := isDigit_iff.mp h; omega
            have hc5B : ¬ c = 0x5B := by
              rcases hc with h | h
              · omega
              · have := isDigit_iff.mp h; omega
            have hc7B : ¬ c = 0x7B := by
              rcases hc with h | h
              · omega
              · have := isDigit_iff.mp h; omega
            have hc6E : ¬ c = 0x6E := by
              rcases hc with h | h
              · omega
              · have := isDigit_iff.mp h; omega
            have hc74 : ¬ c = 0x74 := by
              rcases hc with h | h
              · omega
              · have := isDigit_iff.mp h; omega
            have hc66 : ¬ c = 0x66 := by
              rcases hc with h | h
              · omega
              · have := isDigit_iff.mp h; omega
            have hnum : parseNum (c :: (cs ++ rest)) = some (.num n, rest) := by
              rw [← List.cons_append, ← hcs]
              exact parseNum_dumpInt n rest hsep
            rw [hdump, List.cons_append]
            simp [pv, hc22, hc5B, hc7B, hc6E, hc74, hc66, hc, hnum]
        | str s =>
            have hdump : dumpJson (Json.str s) ++ rest =
                0x22 :: (escapeStr s ++ 0x22 :: rest) := by
              simp [dumpJson, dumpStr]
            rw [hdump]
            simp [pv, parseStrBody_escape s rest]
        | arr es =>
            cases es with
            | nil =>
                rw [show dumpJson (Json.arr JsonArr.nil) = [0x5B, 0x5D] from by
                  simp [dumpJson, dumpArr]]
                simp [pv]
            | cons e tl =>
                obtain ⟨x, hx⟩ := dumpArr_cons_split e tl
                obtain ⟨c, cs, hcs, hc5D, _⟩ := dumpJson_head e
                have hdump : dumpJson (Json.arr (.cons e tl)) ++ rest =
                    0x5B :: (c :: (cs ++ x ++ 0x5D :: rest)) := by
                  simp [dumpJson, hx, hcs]
                have hback : c :: (cs ++ (x ++ 0x5D :: rest)) =
                    dumpArr (.cons e tl) ++ 0x5D :: rest := by
                  simp [hx, hcs]
                have hpe : pe f (c :: (cs ++ (x ++ 0x5D :: rest))) =
                    some (JsonArr.cons e tl, rest) := by
                  rw [hback]
                  refine ihe (.cons e tl) rest (by simp) ?_
                  have hneed : need (Json.arr (.cons e tl)) = needA (.cons e tl) + 1 := by
                    simp [need]
                  omega
                rw [hdump]
                simp [pv, hc5D, hpe]
        | obj ms =>
            cases ms with
            | nil =>
                rw [show dumpJson (Json.obj JsonObj.nil) = [0x7B, 0x7D] from by
                  simp [dumpJson, dumpObj]]
                simp [pv]
            | cons k v tl =>
                obtain ⟨x, hx⟩ := dumpObj_cons_head k v tl
                have hdump : dumpJson (Json.obj (.cons k v tl)) ++ rest =
                    0x7B :: (0x22 :: ((escapeStr k ++ 0x22 :: x) ++ 0x7D :: rest)) := by
                  simp [dumpJson, hx]
                have hback : 0x22 :: (escapeStr k ++ 0x22 :: (x ++ 0x7D :: rest)) =
                    dumpObj (.cons k v tl) ++ 0x7D :: rest := by
                  simp [hx]
                have hpm : pm f (0x22 :: (escapeStr k ++ 0x22 :: (x ++ 0x7D :: rest))) =
                    some (JsonObj.cons k v tl, rest) := by
                  rw [hback]
                  refine ihm (.cons k v tl) rest (by simp) ?_
                  have hneed : need (Json.obj (.cons k v tl)) = needO (.cons k v tl) + 1 := by
                    simp [need]
                  omega
                rw [hdump]
                simp [pv, hpm]
      · intro es rest hne hn
        cases es with
        | nil => exact absurd rfl hne
        | cons e tl =>
            cases tl with
            | nil =>
                have hdump : dumpArr (.cons e .nil) ++ 0x5D :: rest =
                    dumpJson e ++ 0x5D :: rest := by
                  simp [dumpArr]
                have hv : pv f (dumpJson e ++ 0x5D :: rest) = some (e, 0x5D :: rest) := by
                  refine ihv e (0x5D :: rest) ?_ (by exact rfl)
                  have : needA (JsonArr.cons e .nil) = need e + 0 + 1 := by simp [needA]
                  omega
                rw [hdump]
                simp [pe, hv]
            | cons f2 tl2 =>
                have hdump : dumpArr (.cons e (.cons f2 tl2)) ++ 0x5D :: rest =
                    dumpJson e ++ 0x2C :: (dumpArr (.cons f2 tl2) ++ 0x5D :: rest) := by
                  simp [dumpArr]
                have hneed : needA (JsonArr.cons e (.cons f2 tl2)) =
                    need e + needA (.cons f2 tl2) + 1 := by simp [needA]
                have hv : pv f (dumpJson e ++ 0x2C :: (dumpArr (.cons f2 tl2) ++ 0x5D :: rest)) =
                    some (e, 0x2C :: (dumpArr (.cons f2 tl2) ++ 0x5D :: rest)) := by
                  refine ihv e _ (by omega) (by exact rfl)
                have he : pe f (dumpArr (.cons f2 tl2) ++ 0x5D :: rest) =
                    some (JsonArr.cons f2 tl2, rest) := by
                  refine ihe (.cons f2 tl2) rest (by simp) (by omega)
                rw [hdump]
                simp [pe, hv, he]
      · intro ms rest hne hn
        cases ms with
        | nil => exact absurd rfl hne
        | cons k v tl =>
            cases tl with
            | nil =>
                have hdump : dumpObj (.cons k v .nil) ++ 0x7D :: rest =
                    0x22 :: (escapeStr k ++ 0x22 :: (0x3A :: (dumpJson v ++ 0x7D :: rest))) := by
                  simp [dumpObj, dumpStr]
                have hneed : needO (JsonObj.cons k v .nil) = need v + 0 + 1 := by simp [needO]
                have hv : pv f (dumpJson v ++ 0x7D :: rest) = some (v, 0x7D :: rest) := by
                  refine ihv v (0x7D :: rest) (by omega) (by exact rfl)
                rw [hdump]
                simp [pm, parseStrBody_escape k (0x3A :: (dumpJson v ++ 0x7D :: rest)), hv]
            | cons k2 v2 tl2 =>
                have hdump : dumpObj (.cons k v (.cons k2 v2 tl2)) ++ 0x7D :: rest =
                    0x22 :: (escapeStr k ++ 0x22 ::
                      (0x3A :: (dumpJson v ++ 0x2C ::
                        (dumpObj (.cons k2 v2 tl2) ++ 0x7D :: rest)))) := by
                  simp [dumpObj, dumpStr]
                have hneed : needO (JsonObj.cons k v (.cons k2 v2 tl2)) =
                    need v + needO (.cons k2 v2 tl2) + 1 := by simp [needO]
                have hv : pv f (dumpJson v ++ 0x2C ::
                    (dumpObj (.cons k2 v2 tl2) ++ 0x7D :: rest)) =
                    some (v, 0x2C :: (dumpObj (.cons k2 v2 tl2) ++ 0x7D :: rest)) := by
                  refine ihv v _ (by omega) (by exact rfl)
                have hm : pm f (dumpObj (.cons k2 v2 tl2) ++ 0x7D :: rest) =
                    some (JsonObj.cons k2 v2 tl2, rest) := by
                  refine ihm (.cons k2 v2 tl2) rest (by simp) (by omega)
                rw [hdump]
                simp [pm, parseStrBody_escape k
                  (0x3A :: (dumpJson v ++ 0x2C :: (dumpObj (.cons k2 v2 tl2) ++ 0x7D :: rest))),
                  hv, hm]

mutual
theorem need_le_len (j : Json) : need j ≤ (dumpJson j).length := by
  cases j with
  | null => simp [need, dumpJson]
  | bool b => cases b <;> simp [need, dumpJson]
  | num n =>
      obtain ⟨c, cs, hcs, _⟩ := dumpInt_head n
      simp [need, dumpJson, hcs]
  | str s => simp [need, dumpJson, dumpStr]
  | arr es =>
      cases es with
      | nil => simp [need, dumpJson]
      | cons e tl =>
          have h := needA_le_len (.cons e tl)
          simp only [need, dumpJson, List.length_cons, List.length_append]
          omega
  | obj ms =>
      cases ms with
      | nil => simp [need, dumpJson]
      | cons k v tl =>
          have h := needO_le_len (.cons k v tl)
          simp only [need, dumpJson, List.length_cons, List.length_append]
          omega
theorem needA_le_len (es : JsonArr) : needA es ≤ (dumpArr es).length + 1 := by
  cases es with
  | nil => simp [needA]
  | cons e tl =>
      cases tl with
      | nil =>
          have h := need_le_len e
          simp only [needA, dumpArr]
          omega
      | cons f tl2 =>
          have h1 := need_le_len e
          have h2 := needA_le_len (.cons f tl2)
          have e1 : needA (JsonArr.cons e (.cons f tl2)) =
              need e + needA (.cons f tl2) + 1 := by simp [needA]
          have e2 : (dumpArr (JsonArr.cons e (.cons f tl2))).length =
              (dumpJson e).length + 1 + (dumpArr (JsonArr.cons f tl2)).length := by
            simp [dumpArr]
            omega
          omega
theorem needO_le_len (ms : JsonObj) : needO ms ≤ (dumpObj ms).length + 1 := by
  cases ms with
  | nil => simp [needO]
  | cons k v tl =>
      cases tl with
      | nil =>
          have h := need_le_len v
          simp only [needO, dumpObj, List.length_append, List.length_cons]
          omega
      | cons k2 v2 tl2 =>
          have h1 := need_le_len v
          have h2 := needO_le_len (.cons k2 v2 tl2)
          have e1 : needO (JsonObj.cons k v (.cons k2 v2 tl2)) =
              need v + needO (.cons k2 v2 tl2) + 1 := by simp [needO]
          have e2 : (dumpObj (JsonObj.cons k v (.cons k2 v2 tl2))).length =
              (dumpStr k).length + 1 + (dumpJson v).length + 1 +
                (dumpObj (JsonObj.cons k2 v2 tl2)).length := by
            simp [dumpObj]
            omega
          have e3 : 2 ≤ (dumpStr k).length := by simp [dumpStr]
          omega
end

theorem Json.parse_dumpJson (j : Json) : Json.parse (dumpJson j) = some j := by
  have h := (parse_dump_fuel ((dumpJson j).length + 1)).1 j []
    (by have := need_le_len j; omega) trivial
  rw [List.append_nil] at h
  rw [Json.parse, h]

/-! ## Little-endian framing round trip -/

theorem readLE64_writeLE64 (n : Nat) (hn : n < 256 ^ 8) (rest : List Nat) :
    readLE64 (writeLE64 n ++ rest) = n := by
  have htake : (writeLE64 n ++ rest).take 8 = writeLE64 n := by
    rw [List.take_append_of_le_length (by simp [writeLE64])]
    simp [writeLE64]
  rw [readLE64, htake, writeLE64]
  simp only [List.foldr_cons, List.foldr_nil]
  omega

/-! ## The dtype tag mapping -/

theorem dtype_to_from (x : Dtype) :
    dtype_from_safetensor_str (dtype_to_safetensor_str x) = some x := by
  cases x <;> rfl

theorem dtype_from_ok_iff (s : ByteStr) :
    (∃ d, dtype_from_safetensor_str s = some d) ↔ s ∈ safetensorTags := by
  constructor
  · rintro ⟨d, hd⟩
    rw [dtype_from_safetensor_str] at hd
    simp only [safetensorTags, List.mem_cons, List.not_mem_nil, or_false]
    by_cases h1 : s = stF32
    · exact Or.inl h1
    rw [if_neg h1] at hd
    by_cases h2 : s = stF16
    · exact Or.inr (Or.inl h2)
    rw [if_neg h2] at hd
    by_cases h3 : s = stBF16
    · exact Or.inr (Or.inr (Or.inl h3))
    rw [if_neg h3] at hd
    by_cases h4 : s = stI64
    · exact Or.inr (Or.inr (Or.inr (Or.inl h4)))
    rw [if_neg h4] at hd
    by_cases h5 : s = stI32
    · exact Or.inr (Or.inr (Or.inr (Or.inr (Or.inl h5))))
    rw [if_neg h5] at hd
    by_cases h6 : s = stI16
    · exact Or.inr (Or.inr (Or.inr (Or.inr (Or.inr (Or.inl h6)))))
    rw [if_neg h6] at hd
    by_cases h7 : s = stI8
    · exact Or.inr (Or.inr (Or.inr (Or.inr (Or.inr (Or.inr (Or.inl h7))))))
    rw [if_neg h7] at hd
    by_cases h8 : s = stU64
    · exact Or.inr (Or.inr (Or.inr (Or.inr (Or.inr (Or.inr (Or.inr (Or.inl h8)))))))
    rw [if_neg h8] at hd
    by_cases h9 : s = stU32
    · exact Or.inr (Or.inr (Or.inr (Or.inr (Or.inr (Or.inr (Or.inr (Or.inr (Or.inl h9))))))))
    rw [if_neg h9] at hd
    by_cases h10 : s = stU16
    · exact Or.inr (Or.inr (Or.inr (Or.inr (Or.inr (Or.inr (Or.inr (Or.inr (Or.inr
        (Or.inl h10)))))))))
    rw [if_neg h10] at hd
    by_cases h11 : s = stU8
    · exact Or.inr (Or.inr (Or.inr (Or.inr (Or.inr (Or.inr (Or.inr (Or.inr (Or.inr
        (Or.inr (Or.inl h11))))))))))
    rw [if_neg h11] at hd
    by_cases h12 : s = stBOOL
    · exact Or.inr (Or.inr (Or.inr (Or.inr (Or.inr (Or.inr (Or.inr (Or.inr (Or.inr
        (Or.inr (Or.inr (Or.inl h12)))))))))))
    rw [if_neg h12] at hd
    by_cases h13 : s = stC64
    · exact Or.inr (Or.inr (Or.inr (Or.inr (Or.inr (Or.inr (Or.inr (Or.inr (Or.inr
        (Or.inr (Or.inr (Or.inr h13)))))))))))
    rw [if_neg h13] at hd
    exact absurd hd (by simp)
  · intro hs
    simp only [safetensorTags, List.mem_cons, List.not_mem_nil, or_false] at hs
    rcases hs with rfl | rfl | rfl | rfl | rfl | rfl | rfl | rfl | rfl | rfl | rfl | rfl | rfl <;>
      exact ⟨_, rfl⟩

/-! ## Association lists and object construction -/

theorem alookup_append_some {α : Type} (l1 l2 : List (ByteStr × α)) (k : ByteStr) (v : α)
    (h : alookup l1 k = some v) : alookup (l1 ++ l2) k = some v := by
  induction l1 with
  | nil => simp [alookup] at h
  | cons kv tl ih =>
      obtain ⟨k0, v0⟩ := kv
      rw [alookup] at h
      rw [List.cons_append, alookup]
      by_cases hk : k0 = k
      · rw [if_pos hk] at h ⊢
        exact h
      · rw [if_neg hk] at h ⊢
        exact ih h

theorem alookup_append_none {α : Type} (l1 l2 : List (ByteStr × α)) (k : ByteStr)
    (h : alookup l1 k = none) : alookup (l1 ++ l2) k = alookup l2 k := by
  induction l1 with
  | nil => simp
  | cons kv tl ih =>
      obtain ⟨k0, v0⟩ := kv
      rw [alookup] at h
      rw [List.cons_append, alookup]
      by_cases hk : k0 = k
      · rw [if_pos hk] at h
        exact absurd h (by simp)
      · rw [if_neg hk] at h ⊢
        exact ih h

theorem insertNew_of_absent {α : Type} (l : List (ByteStr × α)) (k : ByteStr) (v : α)
    (h : alookup l k = none) : insertNew l k v = l ++ [(k, v)] := by
  induction l with
  | nil => rfl
  | cons kv tl ih =>
      obtain ⟨k0, v0⟩ := kv
      rw [alookup] at h
      rw [insertNew, List.cons_append]
      by_cases hk : k0 = k
      · rw [if_pos hk] at h
        exact absurd h (by simp)
      · rw [if_neg hk] at h ⊢
        rw [ih h]

theorem alookup_self_append {α : Type} (l : List (ByteStr × α)) (k : ByteStr) (v : α)
    (h : alookup l k = none) : alookup (l ++ [(k, v)]) k = some v := by
  rw [alookup_append_none l _ k h, alookup, if_pos rfl]

theorem alookup_insertNew_same {α : Type} (l : List (ByteStr × α)) (k : ByteStr) (v : α)
    (h : alookup l k = none) : alookup (insertNew l k v) k = some v := by
  rw [insertNew_of_absent l k v h]
  exact alookup_self_append l k v h

theorem alookup_insertNew_ne {α : Type} (l : List (ByteStr × α)) (k k2 : ByteStr) (v : α)
    (hne : k ≠ k2) : alookup (insertNew l k2 v) k = alookup l k := by
  induction l with
  | nil =>
      show (if k2 = k then some v else alookup ([] : List (ByteStr × α)) k) =
        alookup ([] : List (ByteStr × α)) k
      rw [if_neg (fun h => hne h.symm)]
  | cons kv tl ih =>
      obtain ⟨k0, v0⟩ := kv
      rw [insertNew]
      by_cases hk : k0 = k2
      · rw [if_pos hk]
      · rw [if_neg hk, alookup, alookup]
        by_cases hk0 : k0 = k
        · rw [if_pos hk0, if_pos hk0]
        · rw [if_neg hk0, if_neg hk0]
          exact ih

theorem alookup_insertNew_of_some {α : Type} (l : List (ByteStr × α)) (k k2 : ByteStr)
    (v v2 : α) (h : alookup l k = some v) : alookup (insertNew l k2 v2) k = some v := by
  by_cases hk : k = k2
  · subst hk
    induction l with
    | nil => simp [alookup] at h
    | cons kv tl ih =>
        obtain ⟨k0, v0⟩ := kv
        rw [alookup] at h
        rw [insertNew]
        by_cases hk0 : k0 = k
        · rw [if_pos hk0] at h
          rw [if_pos hk0, alookup, if_pos hk0]
          exact h
        · rw [if_neg hk0] at h
          rw [if_neg hk0, alookup, if_neg hk0]
          exact ih h
  · rw [alookup_insertNew_ne l k k2 v2 hk]
    exact h

theorem JsonObj.set_fresh : ∀ (ms : JsonObj) (k : ByteStr) (v : Json),
    ms.lookup k = none → (ms.set k v).toList = ms.toList ++ [(k, v)]
  | .nil, k, v, _ => rfl
  | .cons k0 v0 tl, k, v, h => by
      rw [JsonObj.lookup] at h
      rw [JsonObj.set]
      by_cases hk : k0 = k
      · rw [if_pos hk] at h
        exact absurd h (by simp)
      · rw [if_neg hk] at h
        rw [if_neg hk, JsonObj.toList, JsonObj.toList,
          JsonObj.set_fresh tl k v h, List.cons_append]

theorem JsonObj.lookup_eq_alookup : ∀ (ms : JsonObj) (k : ByteStr),
    ms.lookup k = alookup ms.toList k
  | .nil, _ => rfl
  | .cons k0 v0 tl, k => by
      rw [JsonObj.lookup, JsonObj.toList, alookup]
      by_cases hk : k0 = k
      · rw [if_pos hk, if_pos hk]
      · rw [if_neg hk, if_neg hk, JsonObj.lookup_eq_alookup tl k]

theorem foldl_jsonSet_obj (entries : List (ByteStr × Json)) :
    ∀ ms : JsonObj, (∀ kv ∈ entries, alookup ms.toList kv.1 = none) →
      (entries.map Prod.fst).Nodup →
      ∃ ms2, entries.foldl (fun p kv => jsonSet p kv.1 kv.2) (.obj ms) = .obj ms2 ∧
        ms2.toList = ms.toList ++ entries := by
  induction entries with
  | nil => intro ms _ _; exact ⟨ms, rfl, by simp⟩
  | cons kv tl ih =>
      intro ms hfresh hnodup
      obtain ⟨k0, v0⟩ := kv
      rw [List.map_cons, List.nodup_cons] at hnodup
      rw [List.foldl_cons]
      have hk0 : ms.lookup k0 = none := by
        rw [JsonObj.lookup_eq_alookup]
        exact hfresh (k0, v0) (by simp)
      have hset : jsonSet (.obj ms) k0 v0 = .obj (ms.set k0 v0) := rfl
      rw [hset]
      have hset_toList := JsonObj.set_fresh ms k0 v0 hk0
      have hfresh2 : ∀ kv ∈ tl, alookup (ms.set k0 v0).toList kv.1 = none := by
        intro kv2 hkv2
        rw [hset_toList]
        have hne : kv2.1 ≠ k0 := by
          intro heq
          have hmem : kv2.1 ∈ tl.map Prod.fst := List.mem_map_of_mem Prod.fst hkv2
          rw [heq] at hmem
          exact hnodup.1 hmem
        rw [alookup_append_none _ _ _ (hfresh kv2 (by simp [hkv2]))]
        rw [alookup, if_neg (fun h => hne h.symm)]
        rfl
      obtain ⟨ms2, hms2, htl⟩ := ih (ms.set k0 v0) hfresh2 hnodup.2
      refine ⟨ms2, hms2, ?_⟩
      rw [htl, hset_toList]
      simp

theorem buildMetaJson_obj (md : List (ByteStr × ByteStr)) (hne : md ≠ [])
    (hnodup : (md.map Prod.fst).Nodup) :
    ∃ ms, buildMetaJson md = .obj ms ∧
      ms.toList = md.map fun kv => (kv.1, Json.str kv.2) := by
  rw [buildMetaJson]
  cases md with
  | nil => exact absurd rfl hne
  | cons kv0 md' =>
      obtain ⟨k0, v0⟩ := kv0
      rw [List.map_cons, List.nodup_cons] at hnodup
      rw [List.foldl_cons]
      have hset : jsonSet Json.null k0 (.str v0) = .obj (.cons k0 (.str v0) .nil) := rfl
      rw [hset]
      have hrw : md'.foldl (fun j kv => jsonSet j kv.1 (.str kv.2))
            (Json.obj (.cons k0 (.str v0) .nil)) =
          (md'.map fun kv => (kv.1, Json.str kv.2)).foldl
            (fun p kv => jsonSet p kv.1 kv.2) (Json.obj (.cons k0 (.str v0) .nil)) := by
        rw [List.foldl_map]
      rw [hrw]
      have hnodup' : ((md'.map fun kv => (kv.1, Json.str kv.2)).map Prod.fst).Nodup := by
        have heq : (md'.map fun kv => (kv.1, Json.str kv.2)).map Prod.fst =
            md'.map Prod.fst := by
          simp [Function.comp]
        rw [heq]
        exact hnodup.2
      have hfresh : ∀ kv ∈ md'.map fun kv => (kv.1, Json.str kv.2),
          alookup (JsonObj.cons k0 (.str v0) .nil).toList kv.1 = none := by
        intro kv hkv
        obtain ⟨kv', hkv', rfl⟩ := List.mem_map.mp hkv
        have hne0 : kv'.1 ≠ k0 := by
          intro heq
          have hmem : kv'.1 ∈ md'.map Prod.fst := List.mem_map_of_mem Prod.fst hkv'
          rw [heq] at hmem
          exact hnodup.1 hmem
        rw [JsonObj.toList, JsonObj.toList, alookup, if_neg (fun h => hne0 h.symm)]
        rfl
      obtain ⟨ms2, hms2, htl⟩ :=
        foldl_jsonSet_obj (md'.map fun kv => (kv.1, Json.str kv.2))
          (.cons k0 (.str v0) .nil) hfresh hnodup'
      refine ⟨ms2, hms2, ?_⟩
      rw [htl]
      simp [JsonObj.toList]

/-! ## Entry decoding -/

theorem entryJson_eq (t : Tensor) (off : Nat) :
    entryJson t off =
      .obj (.cons dtypeKey (.str (dtype_to_safetensor_str t.dtype))
        (.cons shapeKey (.arr (jsonArrOfNats t.shape))
          (.cons dataOffsetsKey
            (.arr (.cons (.num (off : Int))
              (.cons (.num ((off + t.nbytes : Nat) : Int)) .nil))) .nil))) := by
  rw [entryJson]
  rfl

theorem getField_err (j : Json) (k : ByteStr) (e : LoadErr)
    (h : getField j k = .error e) : e = .missingField ∨ e = .typeMismatch := by
  cases j with
  | obj ms =>
      rw [getField] at h
      cases hlk : ms.lookup k with
      | some v => rw [hlk] at h; simp at h
      | none =>
          rw [hlk] at h
          simp only [Except.error.injEq] at h
          exact Or.inl h.symm
  | null => simp only [getField, Except.error.injEq] at h; exact Or.inr h.symm
  | bool b => simp only [getField, Except.error.injEq] at h; exact Or.inr h.symm
  | num n => simp only [getField, Except.error.injEq] at h; exact Or.inr h.symm
  | str s => simp only [getField, Except.error.injEq] at h; exact Or.inr h.symm
  | arr es => simp only [getField, Except.error.injEq] at h; exact Or.inr h.symm

theorem asString_err (j : Json) (e : LoadErr) (h : asString j = .error e) :
    e = .typeMismatch := by
  cases j <;> simp only [asString] at h <;>
    first
      | (simp only [Except.error.injEq] at h; exact h.symm)
      | simp at h

theorem asJsonArr_err (j : Json) (e : LoadErr) (h : asJsonArr j = .error e) :
    e = .typeMismatch := by
  cases j <;> simp only [asJsonArr] at h <;>
    first
      | (simp only [Except.error.injEq] at h; exact h.symm)
      | simp at h

theorem asIntArr_err : ∀ (es : JsonArr) (e : LoadErr), asIntArr es = .error e →
    e = .typeMismatch
  | .nil, e, h => by simp [asIntArr] at h
  | .cons (.num n) tl, e, h => by
      rw [asIntArr] at h
      cases htl : asIntArr tl with
      | ok xs => rw [htl] at h; simp at h
      | error e2 =>
          rw [htl] at h
          simp only [Except.error.injEq] at h
          rw [← h]
          exact asIntArr_err tl e2 htl
  | .cons .null tl, e, h => by
      simp only [asIntArr, Except.error.injEq] at h; exact h.symm
  | .cons (.bool b) tl, e, h => by
      simp only [asIntArr, Except.error.injEq] at h; exact h.symm
  | .cons (.str s) tl, e, h => by
      simp only [asIntArr, Except.error.injEq] at h; exact h.symm
  | .cons (.arr es2) tl, e, h => by
      simp only [asIntArr, Except.error.injEq] at h; exact h.symm
  | .cons (.obj ms) tl, e, h => by
      simp only [asIntArr, Except.error.injEq] at h; exact h.symm

theorem asSizeArr_err : ∀ (es : JsonArr) (e : LoadErr), asSizeArr es = .error e →
    e = .typeMismatch
  | .nil, e, h => by simp [asSizeArr] at h
  | .cons (.num n) tl, e, h => by
      rw [asSizeArr] at h
      cases htl : asSizeArr tl with
      | ok xs => rw [htl] at h; simp at h
      | error e2 =>
          rw [htl] at h
          simp only [Except.error.injEq] at h
          rw [← h]
          exact asSizeArr_err tl e2 htl
  | .cons .null tl, e, h => by
      simp only [asSizeArr, Except.error.injEq] at h; exact h.symm
  | .cons (.bool b) tl, e, h => by
      simp only [asSizeArr, Except.error.injEq] at h; exact h.symm
  | .cons (.str s) tl, e, h => by
      simp only [asSizeArr, Except.error.injEq] at h; exact h.symm
  | .cons (.arr es2) tl, e, h => by
      simp only [asSizeArr, Except.error.injEq] at h; exact h.symm
  | .cons (.obj ms) tl, e, h => by
      simp only [asSizeArr, Except.error.injEq] at h; exact h.symm

theorem asIntArr_ofNats (l : List Nat) (h : ∀ d ∈ l, d < 2 ^ 31) :
    asIntArr (jsonArrOfNats l) = .ok (l.map Int.ofNat) := by
  induction l with
  | nil => rfl
  | cons d tl ih =>
      rw [jsonArrOfNats]
      simp only [asIntArr]
      rw [ih (fun x hx => h x (by simp [hx]))]
      have hd : toInt32 (d : Int) = (d : Int) := by
        rw [toInt32]
        have := h d (by simp)
        omega
      simp [hd]

theorem asSizeArr_pair (x y : Nat) (hx : x < 2 ^ 64) :
    asSizeArr (.cons (.num (x : Int)) (.cons (.num (y : Int)) .nil)) =
      .ok [x, ((y : Int) % 2 ^ 64).toNat] := by
  simp only [asSizeArr]
  simp only [Except.ok.injEq, List.cons.injEq, and_true, true_and]
  omega

theorem decodeEntry_entryJson (base off : Nat) (t : Tensor)
    (hdims : ∀ d ∈ t.shape, d < 2 ^ 31) (hoff : off < 2 ^ 64) :
    decodeEntry base (entryJson t off) =
      .ok ⟨base + off, t.shape.map Int.ofNat, t.dtype⟩ := by
  rw [entryJson_eq]
  have h12 : ¬ (dtypeKey = shapeKey) := by decide
  have h13 : ¬ (dtypeKey = dataOffsetsKey) := by decide
  have h23 : ¬ (shapeKey = dataOffsetsKey) := by decide
  simp only [decodeEntry, getField, JsonObj.lookup, if_pos, if_neg, h12, h13, h23,
    ite_true, ite_false, eq_self_iff_true, if_true, if_false, bind, Except.bind,
    asString, asJsonArr, asIntArr_ofNats t.shape hdims,
    asSizeArr_pair off (off + t.nbytes) hoff, dtype_to_from, pure, Except.pure]

theorem decodeEntry_cases (base : Nat) (v : Json) :
    (∃ h, decodeEntry base v = .ok h) ∨
    decodeEntry base v = .error .missingField ∨
    decodeEntry base v = .error .typeMismatch ∨
    decodeEntry base v = .error .unknownTypeTag := by
  simp only [decodeEntry, bind, Except.bind]
  cases h1 : getField v dtypeKey with
  | error e =>
      dsimp only
      rcases getField_err v dtypeKey e h1 with rfl | rfl
      · right; left; rfl
      · right; right; left; rfl
  | ok dtypeJ =>
      dsimp only
      cases h2 : asString dtypeJ with
      | error e =>
          dsimp only
          have he := asString_err dtypeJ e h2
          subst he
          right; right; left; rfl
      | ok dtypeStr =>
          dsimp only
          cases h3 : getField v shapeKey with
          | error e =>
              dsimp only
              rcases getField_err v shapeKey e h3 with rfl | rfl
              · right; left; rfl
              · right; right; left; rfl
          | ok shapeJ =>
              dsimp only
              cases h4 : asJsonArr shapeJ with
              | error e =>
                  dsimp only
                  have he := asJsonArr_err shapeJ e h4
                  subst he
                  right; right; left; rfl
              | ok shapeA =>
                  dsimp only
                  cases h5 : asIntArr shapeA with
                  | error e =>
                      dsimp only
                      have he := asIntArr_err shapeA e h5
                      subst he
                      right; right; left; rfl
                  | ok shape =>
                      dsimp only
                      cases h6 : getField v dataOffsetsKey with
                      | error e =>
                          dsimp only
                          rcases getField_err v dataOffsetsKey e h6 with rfl | rfl
                          · right; left; rfl
                          · right; right; left; rfl
                      | ok offsJ =>
                          dsimp only
                          cases h7 : asJsonArr offsJ with
                          | error e =>
                              dsimp only
                              have he := asJsonArr_err offsJ e h7
                              subst he
                              right; right; left; rfl
                          | ok offsA =>
                              dsimp only
                              cases h8 : asSizeArr offsA with
                              | error e =>
                                  dsimp only
                                  have he := asSizeArr_err offsA e h8
                                  subst he
                                  right; right; left; rfl
                              | ok offs =>
                                  dsimp only
                                  cases h9 : dtype_from_safetensor_str dtypeStr with
                                  | none =>
                                      dsimp only
                                      right; right; right; rfl
                                  | some dt =>
                                      dsimp only
                                      cases offs with
                                      | nil => right; right; left; rfl
                                      | cons o otl => left; exact ⟨_, rfl⟩

theorem collectMeta_err (items : List (ByteStr × Json)) :
    ∀ acc e, collectMeta items acc = .error e → e = .typeMismatch := by
  induction items with
  | nil => intro acc e h; simp [collectMeta] at h
  | cons kv tl ih =>
      intro acc e h
      obtain ⟨k, v⟩ := kv
      cases v with
      | str s =>
          rw [collectMeta] at h
          exact ih _ e h
      | null => simp only [collectMeta, Except.error.injEq] at h; exact h.symm
      | bool b => simp only [collectMeta, Except.error.injEq] at h; exact h.symm
      | num n => simp only [collectMeta, Except.error.injEq] at h; exact h.symm
      | arr es => simp only [collectMeta, Except.error.injEq] at h; exact h.symm
      | obj ms => simp only [collectMeta, Except.error.injEq] at h; exact h.symm

theorem processItems_ne_invalid (items : List (ByteStr × Json)) :
    ∀ base res md, processItems base items res md ≠ .error .invalidHeaderLength := by
  induction items with
  | nil => intro base res md h; simp [processItems] at h
  | cons kv tl ih =>
      intro base res md h
      obtain ⟨k, v⟩ := kv
      rw [processItems] at h
      by_cases hk : k = metadataKey
      · rw [if_pos hk] at h
        cases hc : collectMeta (metaItems v) md with
        | ok md2 =>
            rw [hc] at h
            exact ih base res md2 h
        | error e =>
            rw [hc] at h
            have := collectMeta_err (metaItems v) md e hc
            simp only [Except.error.injEq] at h
            rw [this] at h
            exact LoadErr.noConfusion h
      · rw [if_neg hk] at h
        rcases decodeEntry_cases base v with ⟨hdl, hok⟩ | herr | herr | herr
        · rw [hok] at h
          exact ih base (insertNew res k hdl) md h
        all_goals
          rw [herr] at h
          simp only [Except.error.injEq] at h
          exact LoadErr.noConfusion h

/-! ## Metadata collection -/

theorem collectMeta_strs (items : List (ByteStr × ByteStr)) :
    ∀ acc, (∀ kv ∈ items, alookup acc kv.1 = none) → (items.map Prod.fst).Nodup →
      collectMeta (items.map fun kv => (kv.1, Json.str kv.2)) acc = .ok (acc ++ items) := by
  induction items with
  | nil => intro acc _ _; simp [collectMeta]
  | cons kv tl ih =>
      intro acc hfresh hnodup
      obtain ⟨k, v⟩ := kv
      rw [List.map_cons, List.nodup_cons] at hnodup
      rw [List.map_cons, collectMeta]
      rw [insertNew_of_absent acc k v (hfresh (k, v) (by simp))]
      have hfresh2 : ∀ kv2 ∈ tl, alookup (acc ++ [(k, v)]) kv2.1 = none := by
        intro kv2 hkv2
        rw [alookup_append_none _ _ _ (hfresh kv2 (by simp [hkv2]))]
        have hne : kv2.1 ≠ k := by
          intro heq
          have hmem : kv2.1 ∈ tl.map Prod.fst := List.mem_map_of_mem Prod.fst hkv2
          rw [heq] at hmem
          exact hnodup.1 hmem
        rw [alookup, if_neg (fun h => hne h.symm)]
        rfl
      rw [ih (acc ++ [(k, v)]) hfresh2 hnodup.2]
      simp

theorem collectMeta_buildMeta (md : List (ByteStr × ByteStr))
    (hnodup : (md.map Prod.fst).Nodup) :
    collectMeta (metaItems (buildMetaJson md)) [] = .ok md := by
  by_cases hmd : md = []
  · subst hmd
    rfl
  · obtain ⟨ms, hms, htl⟩ := buildMetaJson_obj md hmd hnodup
    rw [hms]
    rw [show metaItems (Json.obj ms) = ms.toList from rfl, htl]
    have h := collectMeta_strs md [] (fun kv _ => rfl) hnodup
    simpa using h

/-! ## The reader's entry loop on a saved header -/

theorem processItems_entries (a : List (ByteStr × Tensor)) :
    ∀ off es base res md0,
      mkEntries off a = .ok es →
      (∀ kt ∈ a, Tensor.WF kt.2) →
      (∀ kt ∈ a, kt.1 ≠ metadataKey) →
      off + (a.map fun kt => kt.2.nbytes).sum < 2 ^ 64 →
      ∃ res2,
        processItems base es res md0 = .ok (res2, md0) ∧
        (∀ k v, alookup res k = some v → alookup res2 k = some v) ∧
        (∀ a1 kt a2, a = a1 ++ kt :: a2 → alookup res kt.1 = none →
          (∀ kt1 ∈ a1, kt1.1 ≠ kt.1) →
          alookup res2 kt.1 = some ⟨base + (off + (a1.map fun x => x.2.nbytes).sum),
            kt.2.shape.map Int.ofNat, kt.2.dtype⟩) := by
  induction a with
  | nil =>
      intro off es base res md0 hmk _ _ _
      rw [mkEntries] at hmk
      simp only [Except.ok.injEq] at hmk
      subst hmk
      refine ⟨res, by rw [processItems], fun k v h => h, ?_⟩
      intro a1 kt a2 hsplit
      exact absurd hsplit (by simp)
  | cons kt0 a' ih =>
      intro off es base res md0 hmk hwf hnm hbound
      obtain ⟨k0, t0⟩ := kt0
      rw [mkEntries] at hmk
      by_cases hz : t0.nbytes = 0
      · rw [if_pos hz] at hmk
        exact absurd hmk (by simp)
      rw [if_neg hz] at hmk
      cases hmk' : mkEntries (off + t0.nbytes) a' with
      | error k2 =>
          rw [hmk'] at hmk
          exact absurd hmk (by simp)
      | ok es' =>
          rw [hmk'] at hmk
          simp only [Except.ok.injEq] at hmk
          subst hmk
          have hwf0 := hwf (k0, t0) (by simp)
          have hbound' : off + t0.nbytes + (a'.map fun kt => kt.2.nbytes).sum < 2 ^ 64 := by
            simp only [List.map_cons, List.sum_cons] at hbound
            omega
          have hoff : off < 2 ^ 64 := by omega
          have hdec := decodeEntry_entryJson base off t0 hwf0.2 hoff
          obtain ⟨res2, hrun, hpres, hsplit⟩ := ih (off + t0.nbytes) es' base
            (insertNew res k0 ⟨base + off, t0.shape.map Int.ofNat, t0.dtype⟩) md0 hmk'
            (fun kt h => hwf kt (by simp [h])) (fun kt h => hnm kt (by simp [h])) hbound'
          refine ⟨res2, ?_, ?_, ?_⟩
          · rw [processItems, if_neg (hnm (k0, t0) (by simp)), hdec]
            exact hrun
          · intro k v hv
            exact hpres k v (alookup_insertNew_of_some res k k0 v _ hv)
          · intro a1 kt a2 hsp hres hbefore
            cases a1 with
            | nil =>
                rw [List.nil_append] at hsp
                injection hsp with h1 h2
                subst h1
                subst h2
                have h0 := alookup_insertNew_same res k0
                  (⟨base + off, t0.shape.map Int.ofNat, t0.dtype⟩ : LazyHandle) hres
                have := hpres k0 _ h0
                simpa using this
            | cons kt1 a1' =>
                rw [List.cons_append] at hsp
                injection hsp with h1 h2
                subst h1
                have hne : kt.1 ≠ k0 := by
                  have := hbefore (k0, t0) (by simp)
                  exact fun heq => this (heq ▸ rfl)
                have hres' : alookup
                    (insertNew res k0
                      (⟨base + off, t0.shape.map Int.ofNat, t0.dtype⟩ : LazyHandle))
                    kt.1 = none := by
                  rw [alookup_insertNew_ne _ _ _ _ hne]
                  exact hres
                have hstep := hsplit a1' kt a2 h2 hres'
                  (fun x hx => hbefore x (by simp [hx]))
                rw [hstep]
                have harith : off + t0.nbytes + (a1'.map fun x => x.2.nbytes).sum =
                    off + (((k0, t0) :: a1').map fun x => x.2.nbytes).sum := by
                  simp only [List.map_cons, List.sum_cons]
                  omega
                rw [harith]

/-! ## Payload layout -/

theorem payloadBytes_append (x y : List (ByteStr × Tensor)) :
    payloadBytes (x ++ y) = payloadBytes x ++ payloadBytes y := by
  induction x with
  | nil => rfl
  | cons kt tl ih =>
      obtain ⟨k, t⟩ := kt
      rw [List.cons_append, payloadBytes, payloadBytes, ih, List.append_assoc]

theorem payloadBytes_length (x : List (ByteStr × Tensor))
    (h : ∀ kt ∈ x, kt.2.data.length = kt.2.nbytes) :
    (payloadBytes x).length = (x.map fun kt => kt.2.nbytes).sum := by
  induction x with
  | nil => rfl
  | cons kt tl ih =>
      obtain ⟨k, t⟩ := kt
      rw [payloadBytes]
      simp only [List.length_append, List.map_cons, List.sum_cons, List.length_take]
      rw [ih (fun kt2 h2 => h kt2 (by simp [h2]))]
      have hlen := h (k, t) (by simp)
      simp only at hlen
      omega

theorem payload_segment (a1 : List (ByteStr × Tensor)) (k : ByteStr) (t : Tensor)
    (a2 : List (ByteStr × Tensor))
    (h : ∀ kt ∈ a1 ++ (k, t) :: a2, kt.2.data.length = kt.2.nbytes) :
    ((payloadBytes (a1 ++ (k, t) :: a2)).drop
      ((a1.map fun kt => kt.2.nbytes).sum)).take t.nbytes = t.data := by
  rw [payloadBytes_append]
  rw [← payloadBytes_length a1 (fun kt hk => h kt (by simp [hk]))]
  rw [List.drop_left]
  rw [payloadBytes]
  have hlen : t.data.length = t.nbytes := by
    have := h (k, t) (by simp)
    simpa using this
  have htake : t.data.take t.nbytes = t.data := by
    rw [← hlen, List.take_length]
  rw [htake]
  rw [List.take_append_of_le_length (by omega)]
  rw [← hlen, List.take_length]

/-! ## Writer facts -/

theorem mkEntries_ok (a : List (ByteStr × Tensor)) :
    ∀ off, (∀ kt ∈ a, kt.2.nbytes ≠ 0) →
      ∃ es, mkEntries off a = .ok es ∧ es.map Prod.fst = a.map Prod.fst := by
  induction a with
  | nil => intro off _; exact ⟨[], rfl, rfl⟩
  | cons kt0 a' ih =>
      intro off hnz
      obtain ⟨k0, t0⟩ := kt0
      obtain ⟨es', hes', hkeys⟩ := ih (off + t0.nbytes) (fun kt h => hnz kt (by simp [h]))
      refine ⟨(k0, entryJson t0 off) :: es', ?_, by simp [hkeys]⟩
      rw [mkEntries, if_neg (hnz (k0, t0) (by simp)), hes']

theorem mkEntries_error (a : List (ByteStr × Tensor)) :
    ∀ off, (∃ kt ∈ a, kt.2.nbytes = 0) →
      ∃ k t, mkEntries off a = .error k ∧ (k, t) ∈ a ∧ t.nbytes = 0 := by
  induction a with
  | nil => intro off h; simp at h
  | cons kt0 a' ih =>
      intro off hz
      obtain ⟨k0, t0⟩ := kt0
      by_cases h0 : t0.nbytes = 0
      · exact ⟨k0, t0, by rw [mkEntries, if_pos h0], by simp, h0⟩
      · have hz' : ∃ kt ∈ a', kt.2.nbytes = 0 := by
          obtain ⟨kt, hkt, hktz⟩ := hz
          rcases List.mem_cons.mp hkt with rfl | hmem
          · exact absurd hktz h0
          · exact ⟨kt, hmem, hktz⟩
        obtain ⟨k, t, hmk, hmem, htz⟩ := ih (off + t0.nbytes) hz'
        refine ⟨k, t, ?_, by simp [hmem], htz⟩
        rw [mkEntries, if_neg h0, hmk]

theorem alookup_split {α : Type} (l : List (ByteStr × α)) (k : ByteStr) (v : α)
    (h : alookup l k = some v) :
    ∃ l1 l2, l = l1 ++ (k, v) :: l2 ∧ ∀ kv ∈ l1, kv.1 ≠ k := by
  induction l with
  | nil => simp [alookup] at h
  | cons kv0 tl ih =>
      obtain ⟨k0, v0⟩ := kv0
      rw [alookup] at h
      by_cases hk : k0 = k
      · rw [if_pos hk] at h
        simp only [Option.some.injEq] at h
        subst hk
        subst h
        exact ⟨[], tl, rfl, by simp⟩
      · rw [if_neg hk] at h
        obtain ⟨l1, l2, heq, hne⟩ := ih h
        refine ⟨(k0, v0) :: l1, l2, by rw [heq, List.cons_append], ?_⟩
        intro kv hkv
        rcases List.mem_cons.mp hkv with rfl | hmem
        · exact hk
        · exact hne kv hmem

theorem prod_map_ofNat (l : List Nat) : (l.map Int.ofNat).prod = (l.prod : Int) := by
  induction l with
  | nil => rfl
  | cons d tl ih =>
      simp only [List.map_cons, List.prod_cons, ih, Int.ofNat_eq_natCast]
      push_cast
      ring

theorem handle_nbytes (off : Nat) (t : Tensor) :
    LazyHandle.nbytes ⟨off, t.shape.map Int.ofNat, t.dtype⟩ = t.nbytes := by
  rw [LazyHandle.nbytes, Tensor.nbytes]
  dsimp only
  have h : ((t.shape.map Int.ofNat).prod).toNat = t.shape.prod := by
    rw [prod_map_ofNat]
    omega
  rw [h]

theorem save_ok_out (a : List (ByteStr × Tensor)) (metadata : List (ByteStr × ByteStr))
    (es : List (ByteStr × Json)) (hes : mkEntries 0 a = .ok es) :
    save_safetensors a metadata =
      .ok (writeLE64 (dumpJson (buildHeader metadata es)).length ++
        dumpJson (buildHeader metadata es) ++ payloadBytes a) := by
  rw [save_safetensors, hes]

theorem buildHeader_obj (metadata : List (ByteStr × ByteStr)) (es : List (ByteStr × Json))
    (hfresh : ∀ kv ∈ es, kv.1 ≠ metadataKey) (hnodup : (es.map Prod.fst).Nodup) :
    ∃ hms, buildHeader metadata es = .obj hms ∧
      hms.toList = (metadataKey, buildMetaJson metadata) :: es := by
  rw [buildHeader]
  have hset : jsonSet Json.null metadataKey (buildMetaJson metadata) =
      .obj (.cons metadataKey (buildMetaJson metadata) .nil) := rfl
  rw [hset]
  have hfresh2 : ∀ kv ∈ es,
      alookup (JsonObj.cons metadataKey (buildMetaJson metadata) .nil).toList kv.1 = none := by
    intro kv hkv
    rw [JsonObj.toList, JsonObj.toList, alookup,
      if_neg (fun h => hfresh kv hkv h.symm)]
    rfl
  obtain ⟨ms2, hms2, htl⟩ := foldl_jsonSet_obj es _ hfresh2 hnodup
  refine ⟨ms2, hms2, ?_⟩
  rw [htl]
  simp [JsonObj.toList]

theorem mkEntries_keys (a : List (ByteStr × Tensor)) :
    ∀ off es, mkEntries off a = .ok es → es.map Prod.fst = a.map Prod.fst := by
  induction a with
  | nil =>
      intro off es h
      rw [mkEntries] at h
      simp only [Except.ok.injEq] at h
      subst h
      rfl
  | cons kt0 a' ih =>
      intro off es h
      obtain ⟨k0, t0⟩ := kt0
      rw [mkEntries] at h
      by_cases hz : t0.nbytes = 0
      · rw [if_pos hz] at h
        exact absurd h (by simp)
      · rw [if_neg hz] at h
        cases hmk : mkEntries (off + t0.nbytes) a' with
        | error k2 => rw [hmk] at h; exact absurd h (by simp)
        | ok es' =>
            rw [hmk] at h
            simp only [Except.ok.injEq] at h
            subst h
            simp [ih (off + t0.nbytes) es' hmk]

theorem save_load_roundtrip (a : List (ByteStr × Tensor))
    (metadata : List (ByteStr × ByteStr)) (es : List (ByteStr × Json)) (out : List Nat)
    (hwf : ∀ kt ∈ a, Tensor.WF kt.2)
    (hnm : ∀ kt ∈ a, kt.1 ≠ metadataKey)
    (hnodupM : (metadata.map Prod.fst).Nodup)
    (hnodupA : (a.map Prod.fst).Nodup)
    (hsum : (a.map fun kt => kt.2.nbytes).sum < 2 ^ 64)
    (hes : mkEntries 0 a = .ok es)
    (hout : save_safetensors a metadata = .ok out)
    (hlen : (dumpJson (buildHeader metadata es)).length < 100000000) :
    ∃ res, load_safetensors out = .ok (res, metadata) ∧
      ∀ k t, alookup a k = some t →
        ∃ h : LazyHandle, alookup res k = some h ∧
          h.shape = t.shape.map Int.ofNat ∧ h.dtype = t.dtype ∧
          realizeHandle out h = t.data := by
  have hsave := save_ok_out a metadata es hes
  rw [hsave] at hout
  simp only [SaveResult.ok.injEq] at hout
  have hkeys := mkEntries_keys a 0 es hes
  have hfreshM : ∀ kv ∈ es, kv.1 ≠ metadataKey := by
    intro kv hkv
    have hmem : kv.1 ∈ a.map Prod.fst := by
      rw [← hkeys]
      exact List.mem_map_of_mem Prod.fst hkv
    obtain ⟨kt, hkt, heq⟩ := List.mem_map.mp hmem
    rw [← heq]
    exact hnm kt hkt
  have hnodupE : (es.map Prod.fst).Nodup := by
    rw [hkeys]
    exact hnodupA
  obtain ⟨hms, hHobj, htl⟩ := buildHeader_obj metadata es hfreshM hnodupE
  have hL2 : 2 ≤ (dumpJson (buildHeader metadata es)).length := by
    rw [hHobj]
    simp [dumpJson]
  set L := (dumpJson (buildHeader metadata es)).length with hLdef
  have hout2 : out = writeLE64 L ++ (dumpJson (buildHeader metadata es) ++ payloadBytes a) := by
    rw [← hout, List.append_assoc]
  have hread : readLE64 out = L := by
    rw [hout2]
    exact readLE64_writeLE64 L (by norm_num at hlen ⊢; omega) _
  have hdt : ((out.drop 8).take L) = dumpJson (buildHeader metadata es) := by
    rw [hout2, List.drop_left' (by simp [writeLE64] : (writeLE64 L).length = 8)]
    exact List.take_left' hLdef.symm
  rw [load_safetensors]
  simp only [hread]
  rw [if_neg (by omega)]
  rw [hdt, Json.parse_dumpJson, hHobj]
  dsimp only
  rw [htl]
  rw [processItems, if_pos rfl, collectMeta_buildMeta metadata hnodupM]
  obtain ⟨res2, hrun, _, hsplit⟩ := processItems_entries a 0 es (L + 8) [] metadata hes hwf
    hnm (by omega)
  refine ⟨res2, hrun, ?_⟩
  intro k t hkt
  obtain ⟨a1, a2, hspl, hbefore⟩ := alookup_split a k t hkt
  have hh := hsplit a1 (k, t) a2 hspl rfl (fun kt1 h1 => hbefore kt1 h1)
  refine ⟨_, hh, rfl, rfl, ?_⟩
  rw [realizeHandle]
  dsimp only
  rw [handle_nbytes]
  have h8L : (writeLE64 L ++ dumpJson (buildHeader metadata es)).length = 8 + L := by
    simp [writeLE64]
    omega
  have harith : L + 8 + (0 + (a1.map fun x => x.2.nbytes).sum) =
      (writeLE64 L ++ dumpJson (buildHeader metadata es)).length +
        (a1.map fun x => x.2.nbytes).sum := by
    rw [h8L]
    omega
  rw [← hout, harith, List.drop_append]
  rw [hspl]
  exact payload_segment a1 k t a2 (by
    intro kt hktm
    have := hwf kt (by rw [hspl]; exact hktm)
    exact this.1)

/-! ## Structurally well-formed entries and metadata values -/

theorem arrAllNums_asIntArr : ∀ es : JsonArr, arrAllNums es = true →
    ∃ xs, asIntArr es = .ok xs
  | .nil, _ => ⟨[], rfl⟩
  | .cons (.num n) tl, h => by
      rw [arrAllNums] at h
      obtain ⟨xs, hxs⟩ := arrAllNums_asIntArr tl h
      exact ⟨toInt32 n :: xs, by rw [asIntArr, hxs]⟩
  | .cons .null tl, h => by simp [arrAllNums] at h
  | .cons (.bool b) tl, h => by simp [arrAllNums] at h
  | .cons (.str s) tl, h => by simp [arrAllNums] at h
  | .cons (.arr es2) tl, h => by simp [arrAllNums] at h
  | .cons (.obj ms) tl, h => by simp [arrAllNums] at h

theorem arrAllNums_asSizeArr : ∀ es : JsonArr, arrAllNums es = true →
    ∃ xs, asSizeArr es = .ok xs
  | .nil, _ => ⟨[], rfl⟩
  | .cons (.num n) tl, h => by
      rw [arrAllNums] at h
      obtain ⟨xs, hxs⟩ := arrAllNums_asSizeArr tl h
      exact ⟨(n % (2 ^ 64 : Int)).toNat :: xs, by rw [asSizeArr, hxs]⟩
  | .cons .null tl, h => by simp [arrAllNums] at h
  | .cons (.bool b) tl, h => by simp [arrAllNums] at h
  | .cons (.str s) tl, h => by simp [arrAllNums] at h
  | .cons (.arr es2) tl, h => by simp [arrAllNums] at h
  | .cons (.obj ms) tl, h => by simp [arrAllNums] at h

theorem entryWF_decode (base : Nat) (v : Json) (s : ByteStr)
    (hwf : entryWF v = true) (hs : entryDtype v = some s) :
    (dtype_from_safetensor_str s = none →
      decodeEntry base v = .error .unknownTypeTag) ∧
    (∀ d, dtype_from_safetensor_str s = some d → ∃ h, decodeEntry base v = .ok h) := by
  cases v with
  | obj ms =>
      rw [entryWF] at hwf
      rw [entryDtype] at hs
      cases h1 : ms.lookup dtypeKey with
      | none => rw [h1] at hs; exact absurd hs (by simp)
      | some dv =>
          rw [h1] at hwf hs
          cases dv with
          | str s0 =>
              simp only [Option.some.injEq] at hs
              subst hs
              cases h2 : ms.lookup shapeKey with
              | none => rw [h2] at hwf; simp at hwf
              | some sv =>
                  rw [h2] at hwf
                  cases sv with
                  | arr ses =>
                      cases h3 : ms.lookup dataOffsetsKey with
                      | none => rw [h3] at hwf; simp at hwf
                      | some ov =>
                          rw [h3] at hwf
                          cases ov with
                          | arr oes =>
                              cases oes with
                              | nil => simp at hwf
                              | cons o otl =>
                                  cases o with
                                  | num onum =>
                                      simp only [Bool.and_eq_true] at hwf
                                      obtain ⟨⟨_, hshape⟩, hoffs⟩ := hwf
                                      obtain ⟨xs, hxs⟩ := arrAllNums_asIntArr ses hshape
                                      obtain ⟨ys, hys⟩ := arrAllNums_asSizeArr otl hoffs
                                      have hall : asSizeArr (.cons (.num onum) otl) =
                                          .ok ((onum % (2 ^ 64 : Int)).toNat :: ys) := by
                                        rw [asSizeArr, hys]
                                      constructor
                                      · intro hnone
                                        simp only [decodeEntry, bind, Except.bind, getField,
                                          h1, h2, h3, asString, asJsonArr, hxs, hall, hnone]
                                      · intro d hd
                                        refine ⟨⟨base + (onum % (2 ^ 64 : Int)).toNat, xs, d⟩, ?_⟩
                                        simp only [decodeEntry, bind, Except.bind, getField,
                                          h1, h2, h3, asString, asJsonArr, hxs, hall, hd,
                                          pure, Except.pure]
                                  | null => simp at hwf
                                  | bool b => simp at hwf
                                  | str s2 => simp at hwf
                                  | arr es2 => simp at hwf
                                  | obj ms2 => simp at hwf
                          | null => simp at hwf
                          | bool b => simp at hwf
                          | num n => simp at hwf
                          | str s2 => simp at hwf
                          | obj ms2 => simp at hwf
                  | null => simp at hwf
                  | bool b => simp at hwf
                  | num n => simp at hwf
                  | str s2 => simp at hwf
                  | obj ms2 => simp at hwf
          | null => simp at hs
          | bool b => simp at hs
          | num n => simp at hs
          | arr es2 => simp at hs
          | obj ms2 => simp at hs
  | null => simp [entryWF] at hwf
  | bool b => simp [entryWF] at hwf
  | num n => simp [entryWF] at hwf
  | str s2 => simp [entryWF] at hwf
  | arr es2 => simp [entryWF] at hwf

theorem entryWF_has_dtype (v : Json) (hwf : entryWF v = true) :
    ∃ s, entryDtype v = some s := by
  cases v with
  | obj ms =>
      rw [entryWF] at hwf
      rw [entryDtype]
      cases h1 : ms.lookup dtypeKey with
      | none => rw [h1] at hwf; simp at hwf
      | some dv =>
          rw [h1] at hwf
          cases dv with
          | str s0 => exact ⟨s0, rfl⟩
          | null => simp at hwf
          | bool b => simp at hwf
          | num n => simp at hwf
          | arr es2 => simp at hwf
          | obj ms2 => simp at hwf
  | null => simp [entryWF] at hwf
  | bool b => simp [entryWF] at hwf
  | num n => simp [entryWF] at hwf
  | str s2 => simp [entryWF] at hwf
  | arr es2 => simp [entryWF] at hwf

theorem collectMeta_all_str (items : List (ByteStr × Json)) :
    ∀ acc, (∀ kv ∈ items, ∃ s, kv.2 = Json.str s) →
      ∃ res, collectMeta items acc = .ok res := by
  induction items with
  | nil => intro acc _; exact ⟨acc, rfl⟩
  | cons kv tl ih =>
      intro acc hall
      obtain ⟨k, v⟩ := kv
      obtain ⟨s, hs⟩ := hall (k, v) (by simp)
      simp only at hs
      subst hs
      rw [collectMeta]
      exact ih (insertNew acc k s) (fun kv2 h2 => hall kv2 (by simp [h2]))

theorem collectMeta_ok_str (items : List (ByteStr × Json)) :
    ∀ acc res, collectMeta items acc = .ok res →
      ∀ kv ∈ items, ∃ s, kv.2 = Json.str s := by
  induction items with
  | nil => intro acc res _ kv hkv; simp at hkv
  | cons kv0 tl ih =>
      intro acc res hok kv hkv
      obtain ⟨k, v⟩ := kv0
      cases v with
      | str s =>
          rw [collectMeta] at hok
          rcases List.mem_cons.mp hkv with rfl | hmem
          · exact ⟨s, rfl⟩
          · exact ih _ res hok kv hmem
      | null => simp [collectMeta] at hok
      | bool b => simp [collectMeta] at hok
      | num n => simp [collectMeta] at hok
      | arr es => simp [collectMeta] at hok
      | obj ms => simp [collectMeta] at hok

theorem collectMeta_bad (items : List (ByteStr × Json)) :
    ∀ acc, (∃ kv ∈ items, ∀ s, kv.2 ≠ Json.str s) →
      collectMeta items acc = .error .typeMismatch := by
  induction items with
  | nil => intro acc h; simp at h
  | cons kv0 tl ih =>
      intro acc hbad
      obtain ⟨k, v⟩ := kv0
      cases v with
      | str s =>
          rw [collectMeta]
          refine ih (insertNew acc k s) ?_
          obtain ⟨kv, hkv, hne⟩ := hbad
          rcases List.mem_cons.mp hkv with rfl | hmem
          · exact absurd rfl (hne s)
          · exact ⟨kv, hmem, hne⟩
      | null =>
          rw [collectMeta]
          exact fun s hs => Json.noConfusion hs
      | bool b =>
          rw [collectMeta]
          exact fun s hs => Json.noConfusion hs
      | num n =>
          rw [collectMeta]
          exact fun s hs => Json.noConfusion hs
      | arr es =>
          rw [collectMeta]
          exact fun s hs => Json.noConfusion hs
      | obj ms =>
          rw [collectMeta]
          exact fun s hs => Json.noConfusion hs

theorem processItems_unknown (items : List (ByteStr × Json)) :
    ∀ base res md,
      (∀ kv ∈ items, kv.1 ≠ metadataKey → entryWF kv.2 = true) →
      (∀ kv ∈ items, kv.1 = metadataKey → ∀ kv2 ∈ metaItems kv.2, ∃ s, kv2.2 = Json.str s) →
      (∃ kv ∈ items, kv.1 ≠ metadataKey ∧ ∃ s, entryDtype kv.2 = some s ∧
        dtype_from_safetensor_str s = none) →
      processItems base items res md = .error .unknownTypeTag := by
  induction items with
  | nil => intro base res md _ _ hbad; simp at hbad
  | cons kv0 tl ih =>
      intro base res md hwfE hwfM hbad
      obtain ⟨k, v⟩ := kv0
      rw [processItems]
      by_cases hk : k = metadataKey
      · rw [if_pos hk]
        obtain ⟨mres, hmres⟩ := collectMeta_all_str (metaItems v) md
          (hwfM (k, v) (by simp) hk)
        rw [hmres]
        refine ih base res mres (fun kv h => hwfE kv (by simp [h]))
          (fun kv h => hwfM kv (by simp [h])) ?_
        obtain ⟨kv, hkv, hkne, hs⟩ := hbad
        rcases List.mem_cons.mp hkv with rfl | hmem
        · exact absurd hk hkne
        · exact ⟨kv, hmem, hkne, hs⟩
      · rw [if_neg hk]
        have hwf0 := hwfE (k, v) (by simp) hk
        obtain ⟨s0, hs0⟩ := entryWF_has_dtype v hwf0
        have hdec := entryWF_decode base v s0 hwf0 hs0
        cases hfrom : dtype_from_safetensor_str s0 with
        | none =>
            rw [hdec.1 hfrom]
        | some d =>
            obtain ⟨h0, hh0⟩ := hdec.2 d hfrom
            rw [hh0]
            refine ih base (insertNew res k h0) md (fun kv h => hwfE kv (by simp [h]))
              (fun kv h => hwfM kv (by simp [h])) ?_
            obtain ⟨kv, hkv, hkne, s, hs, hnone⟩ := hbad
            rcases List.mem_cons.mp hkv with rfl | hmem
            · simp only at hs
              rw [hs0] at hs
              simp only [Option.some.injEq] at hs
              subst hs
              rw [hfrom] at hnone
              exact absurd hnone (by simp)
            · exact ⟨kv, hmem, hkne, s, hs, hnone⟩

theorem processItems_meta_bad (items : List (ByteStr × Json)) :
    ∀ base res md,
      (∀ kv ∈ items, kv.1 ≠ metadataKey → ∃ h, decodeEntry base kv.2 = .ok h) →
      (∃ kv ∈ items, kv.1 = metadataKey ∧ ∃ kv2 ∈ metaItems kv.2, ∀ s, kv2.2 ≠ Json.str s) →
      processItems base items res md = .error .typeMismatch := by
  induction items with
  | nil => intro base res md _ hbad; simp at hbad
  | cons kv0 tl ih =>
      intro base res md hok hbad
      obtain ⟨k, v⟩ := kv0
      rw [processItems]
      by_cases hk : k = metadataKey
      · rw [if_pos hk]
        cases hc : collectMeta (metaItems v) md with
        | error e =>
            dsimp only
            rw [collectMeta_err (metaItems v) md e hc]
        | ok md2 =>
            dsimp only
            refine ih base res md2 (fun kv h => hok kv (by simp [h])) ?_
            obtain ⟨kv, hkv, hkmk, kv2, hkv2, hne⟩ := hbad
            rcases List.mem_cons.mp hkv with rfl | hmem
            · obtain ⟨s, hs⟩ := collectMeta_ok_str (metaItems v) md md2 hc kv2 hkv2
              exact absurd hs (hne s)
            · exact ⟨kv, hmem, hkmk, kv2, hkv2, hne⟩
      · rw [if_neg hk]
        obtain ⟨h0, hh0⟩ := hok (k, v) (by simp) hk
        rw [hh0]
        refine ih base (insertNew res k h0) md (fun kv h => hok kv (by simp [h])) ?_
        obtain ⟨kv, hkv, hkmk, hrest⟩ := hbad
        rcases List.mem_cons.mp hkv with rfl | hmem
        · exact absurd hkmk hk
        · exact ⟨kv, hmem, hkmk, hrest⟩

/-! ## Offsets recorded in the header -/

theorem entryOffsets_entryJson (t : Tensor) (off : Nat) :
    entryOffsets (entryJson t off) =
      some ((off : Int), ((off + t.nbytes : Nat) : Int)) := by
  rw [entryJson_eq, entryOffsets]
  have h13 : ¬ (dtypeKey = dataOffsetsKey) := by decide
  have h23 : ¬ (shapeKey = dataOffsetsKey) := by decide
  simp [JsonObj.lookup, h13, h23]

theorem mkEntries_split (a1 : List (ByteStr × Tensor)) :
    ∀ off kt a2 es, mkEntries off (a1 ++ kt :: a2) = .ok es →
      ∃ es1 es2, es = es1 ++ (kt.1, entryJson kt.2
        (off + (a1.map fun x => x.2.nbytes).sum)) :: es2 ∧ es1.length = a1.length := by
  induction a1 with
  | nil =>
      intro off kt a2 es h
      obtain ⟨k, t⟩ := kt
      rw [List.nil_append, mkEntries] at h
      by_cases hz : t.nbytes = 0
      · rw [if_pos hz] at h
        exact absurd h (by simp)
      · rw [if_neg hz] at h
        cases hmk : mkEntries (off + t.nbytes) a2 with
        | error k2 => rw [hmk] at h; exact absurd h (by simp)
        | ok es' =>
            rw [hmk] at h
            simp only [Except.ok.injEq] at h
            subst h
            exact ⟨[], es', by simp, rfl⟩
  | cons kt1 a1' ih =>
      intro off kt a2 es h
      obtain ⟨k1, t1⟩ := kt1
      rw [List.cons_append, mkEntries] at h
      by_cases hz : t1.nbytes = 0
      · rw [if_pos hz] at h
        exact absurd h (by simp)
      · rw [if_neg hz] at h
        cases hmk : mkEntries (off + t1.nbytes) (a1' ++ kt :: a2) with
        | error k2 => rw [hmk] at h; exact absurd h (by simp)
        | ok es' =>
            rw [hmk] at h
            simp only [Except.ok.injEq] at h
            subst h
            obtain ⟨es1, es2, heq, hlen⟩ := ih (off + t1.nbytes) kt a2 es' hmk
            refine ⟨(k1, entryJson t1 off) :: es1, es2, ?_, by simp [hlen]⟩
            rw [heq, List.cons_append]
            have harith : off + t1.nbytes + (a1'.map fun x => x.2.nbytes).sum =
                off + (((k1, t1) :: a1').map fun x => x.2.nbytes).sum := by
              simp only [List.map_cons, List.sum_cons]
              omega
            rw [harith]

/-! ## The claims -/

/-- C1 (corrected): saving a mapping of well-formed, non-empty tensors together
with a metadata dictionary and loading the produced container back yields, for
every tensor name, a lazy handle with the original shape and dtype whose
realization reads back exactly the original bytes, and a metadata dictionary
equal to the original — provided no tensor is named `__metadata__` and the
serialized header stays below the 100000000-byte ceiling the reader enforces
(both restrictions are forced by the code: a tensor named `__metadata__`
overwrites the metadata binding and makes the load throw, and an oversized
header is rejected by the reader's length check). -/
theorem claim1_save_load_roundtrip (a : List (ByteStr × Tensor))
    (metadata : List (ByteStr × ByteStr)) (es : List (ByteStr × Json)) (out : List Nat)
    (hwf : ∀ kt ∈ a, Tensor.WF kt.2)
    (hnz : ∀ kt ∈ a, kt.2.nbytes ≠ 0)
    (hnm : ∀ kt ∈ a, kt.1 ≠ metadataKey)
    (hnodupA : (a.map Prod.fst).Nodup)
    (hnodupM : (metadata.map Prod.fst).Nodup)
    (hsum : (a.map fun kt => kt.2.nbytes).sum < 2 ^ 64)
    (hes : mkEntries 0 a = .ok es)
    (hout : save_safetensors a metadata = .ok out)
    (hlen : (dumpJson (buildHeader metadata es)).length < 100000000) :
    ∃ res meta, load_safetensors out = .ok (res, meta) ∧
      (∀ k, alookup meta k = alookup metadata k) ∧
      (∀ k t, alookup a k = some t →
        ∃ h : LazyHandle, alookup res k = some h ∧
          h.shape = t.shape.map Int.ofNat ∧ h.dtype = t.dtype ∧
          realizeHandle out h = t.data) := by
  obtain ⟨res, hload, hres⟩ :=
    save_load_roundtrip a metadata es out hwf hnm hnodupM hnodupA hsum hes hout hlen
  exact ⟨res, metadata, hload, fun _ => rfl, hres⟩

/-- Witness for C1 at the spec's concrete scenario: one 2-by-2 float32 tensor
named `"w"` and metadata `format ↦ test`. -/
theorem claim1_save_load_roundtrip_witness :
    (∀ kt ∈ [(wName, wTensor)], Tensor.WF kt.2) ∧
    (∀ kt ∈ [(wName, wTensor)], kt.2.nbytes ≠ 0) ∧
    (∀ kt ∈ [(wName, wTensor)], kt.1 ≠ metadataKey) ∧
    (([(wName, wTensor)].map Prod.fst).Nodup) ∧
    ((wMeta.map Prod.fst).Nodup) ∧
    (([(wName, wTensor)].map fun kt => kt.2.nbytes).sum < 2 ^ 64 ∧
    mkEntries 0 [(wName, wTensor)] = .ok wEntries ∧
    save_safetensors [(wName, wTensor)] wMeta = .ok wOut ∧
    (dumpJson (buildHeader wMeta wEntries)).length < 100000000 ∧
    ∃ res meta, load_safetensors wOut = .ok (res, meta) ∧
      (∀ k, alookup meta k = alookup wMeta k) ∧
      (∀ k t, alookup [(wName, wTensor)] k = some t →
        ∃ h : LazyHandle, alookup res k = some h ∧
          h.shape = t.shape.map Int.ofNat ∧ h.dtype = t.dtype ∧
          realizeHandle wOut h = t.data)) := by
  have hwf : ∀ kt ∈ [(wName, wTensor)], Tensor.WF kt.2 := by
    intro kt hkt
    rcases List.mem_singleton.mp hkt with rfl
    exact ⟨by decide, by decide⟩
  have hnz : ∀ kt ∈ [(wName, wTensor)], kt.2.nbytes ≠ 0 := by decide
  have hnm : ∀ kt ∈ [(wName, wTensor)], kt.1 ≠ metadataKey := by decide
  have hna : (([(wName, wTensor)]).map Prod.fst).Nodup := by decide
  have hnm2 : ((wMeta.map Prod.fst)).Nodup := by decide
  have hsum : (([(wName, wTensor)]).map fun kt => kt.2.nbytes).sum < 2 ^ 64 := by decide
  have hes : mkEntries 0 [(wName, wTensor)] = .ok wEntries := rfl
  have hout : save_safetensors [(wName, wTensor)] wMeta = .ok wOut := rfl
  have hlen : (dumpJson (buildHeader wMeta wEntries)).length < 100000000 := by decide
  exact ⟨hwf, hnz, hnm, hna, hnm2, hsum, hes, hout, hlen,
    claim1_save_load_roundtrip [(wName, wTensor)] wMeta wEntries wOut
      hwf hnz hnm hna hnm2 hsum hes hout hlen⟩

/-- C1 counterexample to the claim as stated: a mapping containing a tensor
named `__metadata__` saves successfully, but the writer overwrites the
metadata binding with the tensor entry, so loading the container back fails
with a type error (the reader treats the entry object as metadata and throws
converting its array fields to strings) — no tensor with that name, and no
mapping at all, is returned. -/
theorem claim1_counterexample :
    ∃ out, save_safetensors [(metadataKey, metaNamedTensor)] [] = .ok out ∧
      load_safetensors out = .error .typeMismatch := by
  exact ⟨_, rfl, rfl⟩

/-- C2 (code-bug evidence): with an empty metadata dictionary the writer binds
`__metadata__` to JSON null, not to an empty object, because the
default-constructed `json _metadata` stays null when the metadata loop never
runs; the reader nevertheless returns an empty metadata dictionary on the way
back (iterating a null value yields no items). -/
theorem claim2_empty_metadata_null :
    save_safetensors [] [] =
      .ok (writeLE64 21 ++ dumpJson (Json.obj (.cons metadataKey Json.null .nil))) ∧
    buildHeader [] [] = Json.obj (.cons metadataKey Json.null .nil) ∧
    Json.null ≠ Json.obj JsonObj.nil ∧
    load_safetensors
        (writeLE64 21 ++ dumpJson (Json.obj (.cons metadataKey Json.null .nil))) =
      .ok ([], []) := by
  refine ⟨rfl, rfl, ?_, rfl⟩
  intro h
  exact Json.noConfusion h

/-- C3: on any stream carrying at least the 8-byte length field, the load
fails with the invalid-header-length error exactly when the little-endian
value of those bytes is zero or at least 100000000; in particular it fails at
0 and at 100000000, and for any value strictly inside the bounds it proceeds
past the length check (no later failure is the invalid-header-length error). -/
theorem claim3_header_length_bounds (stream : List Nat) (h8 : 8 ≤ stream.length) :
    load_safetensors stream = .error .invalidHeaderLength ↔
      (readLE64 stream = 0 ∨ 100000000 ≤ readLE64 stream) := by
  constructor
  · intro h
    by_contra hb
    simp only [load_safetensors] at h
    rw [if_neg hb] at h
    cases hp : Json.parse ((stream.drop 8).take (readLE64 stream)) with
    | none =>
        rw [hp] at h
        simp at h
    | some j =>
        rw [hp] at h
        cases j with
        | obj ms => exact processItems_ne_invalid ms.toList _ [] [] h
        | null => simp at h
        | bool b => simp at h
        | num n => simp at h
        | str s => simp at h
        | arr es => simp at h
  · intro hb
    simp only [load_safetensors]
    rw [if_pos hb]

/-- Witness for C3: an 8-byte stream whose length field is zero is rejected
with the invalid-header-length error. -/
theorem claim3_header_length_bounds_witness :
    8 ≤ (writeLE64 0 ++ [0x7B]).length ∧
    (load_safetensors (writeLE64 0 ++ [0x7B]) = .error .invalidHeaderLength ↔
      (readLE64 (writeLE64 0 ++ [0x7B]) = 0 ∨
        100000000 ≤ readLE64 (writeLE64 0 ++ [0x7B]))) :=
  ⟨by decide, claim3_header_length_bounds (writeLE64 0 ++ [0x7B]) (by decide)⟩

/-- C4: decoding inverts encoding on all thirteen internal types, and the
decoder succeeds exactly on the thirteen canonical tag strings — any other
string, case-sensitively, is rejected.  The encoder's throwing branch is
unreachable because the thirteen `switch` cases cover the whole internal
enumeration, so the encoder never fails on an internal type. -/
theorem claim4_dtype_tags :
    (∀ x : Dtype, dtype_from_safetensor_str (dtype_to_safetensor_str x) = some x) ∧
    (∀ s : ByteStr, (∃ d, dtype_from_safetensor_str s = some d) ↔ s ∈ safetensorTags) :=
  ⟨dtype_to_from, dtype_from_ok_iff⟩

/-- C5: on any container whose header parses to an object in which every
tensor entry is structurally well formed, every metadata value is a string,
and at least one tensor entry carries a dtype tag outside the enumeration,
the load fails with the unknown-type-tag error — the whole operation aborts
and no partial mapping is returned. -/
theorem claim5_unknown_dtype (stream : List Nat) (ms : JsonObj)
    (hL : ¬ (readLE64 stream = 0 ∨ 100000000 ≤ readLE64 stream))
    (hparse : Json.parse ((stream.drop 8).take (readLE64 stream)) = some (.obj ms))
    (hwfE : ∀ kv ∈ ms.toList, kv.1 ≠ metadataKey → entryWF kv.2 = true)
    (hwfM : ∀ kv ∈ ms.toList, kv.1 = metadataKey →
      ∀ kv2 ∈ metaItems kv.2, ∃ s, kv2.2 = Json.str s)
    (hbad : ∃ kv ∈ ms.toList, kv.1 ≠ metadataKey ∧ ∃ s, entryDtype kv.2 = some s ∧
      dtype_from_safetensor_str s = none) :
    load_safetensors stream = .error .unknownTypeTag := by
  simp only [load_safetensors]
  rw [if_neg hL, hparse]
  exact processItems_unknown ms.toList _ [] [] hwfE hwfM hbad

/-- Witness for C5: the concrete container whose `"t"` entry is tagged with
the unknown dtype string `"Q4"` is rejected with the unknown-type-tag error. -/
theorem claim5_unknown_dtype_witness :
    (¬ (readLE64 q4Stream = 0 ∨ 100000000 ≤ readLE64 q4Stream)) ∧
    Json.parse ((q4Stream.drop 8).take (readLE64 q4Stream)) = some (.obj q4Members) ∧
    load_safetensors q4Stream = .error .unknownTypeTag := by
  have htl : q4Members.toList = [(metadataKey, Json.obj .nil), ([0x74], q4Entry)] := rfl
  refine ⟨by decide, by decide, ?_⟩
  refine claim5_unknown_dtype q4Stream q4Members (by decide) (by decide) (by decide)
    ?_ ?_
  · intro kv hkv hk kv2 hkv2
    rw [htl] at hkv
    rcases List.mem_cons.mp hkv with rfl | hkv'
    · exact absurd hkv2 (by simp [metaItems, JsonObj.toList])
    · rcases List.mem_cons.mp hkv' with rfl | h
      · exact absurd hk (by decide)
      · simp at h
  · exact ⟨([0x74], q4Entry), by rw [htl]; simp, by decide, [0x51, 0x34], rfl, rfl⟩

/-- C6: whenever some tensor in the mapping reports zero bytes, the save
fails with the empty-tensor error naming a zero-byte tensor of the mapping,
and the bytes written before the throw are empty — nothing reaches the
destination stream. -/
theorem claim6_empty_tensor (a : List (ByteStr × Tensor))
    (metadata : List (ByteStr × ByteStr)) (hz : ∃ kt ∈ a, kt.2.nbytes = 0) :
    ∃ k t, save_safetensors a metadata = .err (.emptyTensor k) [] ∧
      (k, t) ∈ a ∧ t.nbytes = 0 := by
  obtain ⟨k, t, hmk, hmem, htz⟩ := mkEntries_error a 0 hz
  exact ⟨k, t, by rw [save_safetensors, hmk], hmem, htz⟩

/-- Witness for C6: saving a single zero-byte float32 tensor fails with the
empty-tensor error and writes nothing. -/
theorem claim6_empty_tensor_witness :
    (∃ kt ∈ [([0x61], (⟨[0], Dtype.float32, []⟩ : Tensor))], kt.2.nbytes = 0) ∧
    ∃ k t, save_safetensors [([0x61], (⟨[0], Dtype.float32, []⟩ : Tensor))] [] =
        .err (.emptyTensor k) [] ∧
      (k, t) ∈ [([0x61], (⟨[0], Dtype.float32, []⟩ : Tensor))] ∧ t.nbytes = 0 :=
  ⟨by decide, claim6_empty_tensor [([0x61], ⟨[0], .float32, []⟩)] [] (by decide)⟩

/-- C7: after a successful save of fully materialized tensors, the header
object lists the metadata binding followed by the tensor entries in the
writer's iteration order, and those entries are offset-contiguous: the entry
of each tensor records `data_offsets` running from the sum of the byte sizes
of all preceding tensors to that sum plus its own byte size (so the first
entry starts at 0), the final entry ends at the total payload length, and any
entry occurring earlier in the order ends no later than a later entry starts,
so no two ranges overlap. -/
theorem claim7_offset_contiguity (a : List (ByteStr × Tensor))
    (metadata : List (ByteStr × ByteStr)) (es : List (ByteStr × Json)) (out : List Nat)
    (hdata : ∀ kt ∈ a, kt.2.data.length = kt.2.nbytes)
    (hnm : ∀ kt ∈ a, kt.1 ≠ metadataKey)
    (hnodup : (a.map Prod.fst).Nodup)
    (hes : mkEntries 0 a = .ok es)
    (hout : save_safetensors a metadata = .ok out) :
    (∃ hms, buildHeader metadata es = .obj hms ∧
      hms.toList = (metadataKey, buildMetaJson metadata) :: es ∧
      out = writeLE64 (dumpJson (buildHeader metadata es)).length ++
        dumpJson (buildHeader metadata es) ++ payloadBytes a) ∧
    (∀ a1 kt a2, a = a1 ++ kt :: a2 →
      ∃ es1 es2,
        es = es1 ++ (kt.1, entryJson kt.2 ((a1.map fun x => x.2.nbytes).sum)) :: es2 ∧
        es1.length = a1.length ∧
        entryOffsets (entryJson kt.2 ((a1.map fun x => x.2.nbytes).sum)) =
          some ((((a1.map fun x => x.2.nbytes).sum : Nat) : Int),
            (((a1.map fun x => x.2.nbytes).sum + kt.2.nbytes : Nat) : Int))) ∧
    (∀ a1 kt, a = a1 ++ [kt] →
      (a1.map fun x => x.2.nbytes).sum + kt.2.nbytes = (payloadBytes a).length) ∧
    (∀ a1 kt a2 kt2 a3, a = a1 ++ kt :: (a2 ++ kt2 :: a3) →
      (a1.map fun x => x.2.nbytes).sum + kt.2.nbytes ≤
        (((a1 ++ kt :: a2).map fun x => x.2.nbytes).sum)) := by
  have hkeys := mkEntries_keys a 0 es hes
  have hfresh : ∀ kv ∈ es, kv.1 ≠ metadataKey := by
    intro kv hkv
    have hmem : kv.1 ∈ a.map Prod.fst := by
      rw [← hkeys]
      exact List.mem_map_of_mem Prod.fst hkv
    obtain ⟨kt, hkt, heq⟩ := List.mem_map.mp hmem
    rw [← heq]
    exact hnm kt hkt
  have hnodupE : (es.map Prod.fst).Nodup := by
    rw [hkeys]
    exact hnodup
  refine ⟨?_, ?_, ?_, ?_⟩
  · obtain ⟨hms, hobj, htl⟩ := buildHeader_obj metadata es hfresh hnodupE
    rw [save_ok_out a metadata es hes] at hout
    simp only [SaveResult.ok.injEq] at hout
    exact ⟨hms, hobj, htl, hout.symm⟩
  · intro a1 kt a2 hsplit
    rw [hsplit] at hes
    obtain ⟨es1, es2, heq, hlen⟩ := mkEntries_split a1 0 kt a2 es hes
    rw [Nat.zero_add] at heq
    exact ⟨es1, es2, heq, hlen, entryOffsets_entryJson kt.2 _⟩
  · intro a1 kt hsplit
    rw [payloadBytes_length a hdata, hsplit]
    simp
  · intro a1 kt a2 kt2 a3 hsplit
    simp only [List.map_append, List.sum_append, List.map_cons, List.sum_cons]
    omega

/-- Witness for C7 at the concrete two-tensor scenario: a 2-by-2 float32
tensor followed by a one-byte uint8 tensor. -/
theorem claim7_offset_contiguity_witness :
    (∀ kt ∈ [(wName, wTensor), ([0x62], (⟨[1], Dtype.uint8, [9]⟩ : Tensor))],
      kt.2.data.length = kt.2.nbytes) ∧
    (∀ kt ∈ [(wName, wTensor), ([0x62], (⟨[1], Dtype.uint8, [9]⟩ : Tensor))],
      kt.1 ≠ metadataKey) ∧
    (([(wName, wTensor), ([0x62], (⟨[1], Dtype.uint8, [9]⟩ : Tensor))].map Prod.fst).Nodup) ∧
    mkEntries 0 [(wName, wTensor), ([0x62], (⟨[1], Dtype.uint8, [9]⟩ : Tensor))] =
      .ok [(wName, entryJson wTensor 0), ([0x62], entryJson (⟨[1], .uint8, [9]⟩ : Tensor) 16)] ∧
    ∃ out, save_safetensors [(wName, wTensor), ([0x62], (⟨[1], Dtype.uint8, [9]⟩ : Tensor))] [] =
        .ok out ∧
      (∀ a1 kt, [(wName, wTensor), ([0x62], (⟨[1], Dtype.uint8, [9]⟩ : Tensor))] = a1 ++ [kt] →
        (a1.map fun x => x.2.nbytes).sum + kt.2.nbytes =
          (payloadBytes [(wName, wTensor), ([0x62], (⟨[1], Dtype.uint8, [9]⟩ : Tensor))]).length) := by
  have hd : ∀ kt ∈ [(wName, wTensor), ([0x62], (⟨[1], Dtype.uint8, [9]⟩ : Tensor))],
      kt.2.data.length = kt.2.nbytes := by decide
  have hnm : ∀ kt ∈ [(wName, wTensor), ([0x62], (⟨[1], Dtype.uint8, [9]⟩ : Tensor))],
      kt.1 ≠ metadataKey := by decide
  have hnd : (([(wName, wTensor), ([0x62], (⟨[1], Dtype.uint8, [9]⟩ : Tensor))]).map
      Prod.fst).Nodup := by decide
  have hes : mkEntries 0 [(wName, wTensor), ([0x62], (⟨[1], Dtype.uint8, [9]⟩ : Tensor))] =
      .ok [(wName, entryJson wTensor 0),
        ([0x62], entryJson (⟨[1], .uint8, [9]⟩ : Tensor) 16)] := rfl
  refine ⟨hd, hnm, hnd, hes, ?_⟩
  have h := claim7_offset_contiguity
    [(wName, wTensor), ([0x62], (⟨[1], Dtype.uint8, [9]⟩ : Tensor))] []
    [(wName, entryJson wTensor 0), ([0x62], entryJson (⟨[1], .uint8, [9]⟩ : Tensor) 16)]
    _ hd hnm hnd hes rfl
  exact ⟨_, rfl, h.2.2.1⟩

/-- C8 counterexample to the claim as stated: the reader does not coerce a
non-string metadata value to its string form — on the concrete container
whose `__metadata__` object binds `"a"` to the number 3, the load fails with
a type error instead of returning a metadata dictionary. -/
theorem claim8_counterexample :
    load_safetensors numMetaStream = .error .typeMismatch := rfl

/-- C8 (corrected): on any container whose header parses to an object in
which every tensor entry decodes successfully and whose `__metadata__` object
contains some value that is not a JSON string, the load fails with a type
error — the non-string value is rejected, not coerced to its string form. -/
theorem claim8_meta_not_string (stream : List Nat) (ms : JsonObj)
    (hL : ¬ (readLE64 stream = 0 ∨ 100000000 ≤ readLE64 stream))
    (hparse : Json.parse ((stream.drop 8).take (readLE64 stream)) = some (.obj ms))
    (hok : ∀ kv ∈ ms.toList, kv.1 ≠ metadataKey →
      ∃ h, decodeEntry (readLE64 stream + 8) kv.2 = .ok h)
    (hbad : ∃ kv ∈ ms.toList, kv.1 = metadataKey ∧
      ∃ kv2 ∈ metaItems kv.2, ∀ s, kv2.2 ≠ Json.str s) :
    load_safetensors stream = .error .typeMismatch := by
  simp only [load_safetensors]
  rw [if_neg hL, hparse]
  exact processItems_meta_bad ms.toList _ [] [] hok hbad

/-- Witness for the corrected C8 on the concrete non-string-metadata
container. -/
theorem claim8_meta_not_string_witness :
    (¬ (readLE64 numMetaStream = 0 ∨ 100000000 ≤ readLE64 numMetaStream)) ∧
    Json.parse ((numMetaStream.drop 8).take (readLE64 numMetaStream)) =
      some (.obj numMetaMembers) ∧
    load_safetensors numMetaStream = .error .typeMismatch := by
  have htl : numMetaMembers.toList =
      [(metadataKey, Json.obj (.cons [0x61] (.num 3) .nil))] := rfl
  refine ⟨by decide, by decide, ?_⟩
  refine claim8_meta_not_string numMetaStream numMetaMembers (by decide) (by decide) ?_ ?_
  · intro kv hkv hne
    rw [htl] at hkv
    rcases List.mem_cons.mp hkv with rfl | h
    · exact absurd rfl hne
    · simp at h
  · refine ⟨(metadataKey, Json.obj (.cons [0x61] (.num 3) .nil)), by rw [htl]; simp, rfl,
      ([0x61], Json.num 3), by simp [metaItems, JsonObj.toList], ?_⟩
    intro s h
    exact Json.noConfusion h

/-- C9: the file-based save overload normalizes the destination name and
otherwise delegates to the stream writer unchanged; the name keeps its form
exactly when it is at least 12 characters long and its last 12 characters are
`".safetensors"`, and in every other case — including every name shorter
than 12 characters — the suffix is appended. -/
theorem claim9_filename (file : ByteStr) (a : List (ByteStr × Tensor))
    (metadata : List (ByteStr × ByteStr)) :
    save_safetensors_to_file file a metadata =
      (normalizeSafetensorsName file, save_safetensors a metadata) ∧
    (¬ file.length < 12 → file.drop (file.length - 12) = stSuffix →
      normalizeSafetensorsName file = file) ∧
    (file.length < 12 → normalizeSafetensorsName file = file ++ stSuffix) ∧
    (file.drop (file.length - 12) ≠ stSuffix →
      normalizeSafetensorsName file = file ++ stSuffix) := by
  refine ⟨rfl, ?_, ?_, ?_⟩
  · intro h12 hsuf
    rw [normalizeSafetensorsName, if_neg]
    push_neg
    exact ⟨Nat.le_of_not_lt h12, hsuf⟩
  · intro h
    rw [normalizeSafetensorsName, if_pos (Or.inl h)]
  · intro h
    rw [normalizeSafetensorsName, if_pos (Or.inr h)]

/-- Witness for C9: the one-character name `"m"` is shorter than 12
characters and gets the suffix appended. -/
theorem claim9_filename_witness :
    ([0x6D] : ByteStr).length < 12 ∧
    normalizeSafetensorsName [0x6D] = [0x6D] ++ stSuffix :=
  ⟨by decide, (claim9_filename [0x6D] [] []).2.2.1 (by decide)⟩

/-- C10: saving an empty tensor mapping with any metadata dictionary
succeeds; the produced container is the 8-byte length followed by the header
bytes with an empty payload region, and the header object carries exactly the
one `__metadata__` binding. -/
theorem claim10_empty_mapping (metadata : List (ByteStr × ByteStr)) :
    save_safetensors [] metadata =
      .ok (writeLE64 (dumpJson (buildHeader metadata [])).length ++
        dumpJson (buildHeader metadata []) ++ []) ∧
    buildHeader metadata [] =
      Json.obj (.cons metadataKey (buildMetaJson metadata) .nil) :=
  ⟨rfl, rfl⟩
